import Mathlib

/-!
Tetra example program `PiApproximation.c`.

A shallow embedding of `UnitTests/Examples/PiApproximation.c` and the
properties of its Leibniz-series approximation of pi.

Conventions of the embedding:

* `float` values are read as exact rationals (`ℚ`): every floating-point
  operation of the source is the corresponding exact operation, no rounding.
  A second model of the same function (`piTermF`, `piBodyF`, `piLoopF`,
  `piWithF`, `piF`) rounds every floating-point operation to binary32 or
  binary64; properties that depend on the values computed are stated for the
  reading they hold in.
* `int` values are unbounded integers (`ℤ`); a third model (`piBodyM`,
  `piLoopM`, `piM`) reduces every `int` operation modulo `2 ^ w`.
* The `for` loop is the `while` loop it abbreviates: the locals that live
  across iterations (`sum`, `sign`, `i`) form the state `PiState`, one
  execution of the body followed by `++i` is `piBody`, the test `i < limit`
  is `piGuard`, and `piLoop` runs the body for as long as the test holds.
-/

namespace Tetra

/-- The locals of `pi` that survive from one loop iteration to the next. -/
structure PiState where
  /-- The accumulator: `float sum`. -/
  sum : ℚ
  /-- The alternating sign: `int sign`. -/
  sign : ℤ
  /-- The loop counter: `int i`. -/
  i : ℤ
deriving DecidableEq

/-- The state on entry to the loop: `sum = 0.0`, `sign = 1`, `i = 0`. -/
def piInit : PiState :=
  { sum := 0, sign := 1, i := 0 }

/-- The local `denominator` of an iteration entered in state `s`:
`int denominator = 2 * i + 1`. -/
def piDenominator (s : PiState) : ℤ :=
  2 * s.i + 1

/-- The local `term` of an iteration entered in state `s`, at the point where
it is added to `sum`: `float term = 1.0 / denominator; term *= sign`, with the
division and the product exact (`piTermF` is the same with rounding). -/
def piTerm (s : PiState) : ℚ :=
  let term : ℚ := 1 / (piDenominator s : ℚ)
  term * (s.sign : ℚ)

/-- One pass through the loop: the body
`sum += term; sign = -sign` followed by the increment `++i`, with the addition
exact (`piBodyF` is the same with rounding). -/
def piBody (s : PiState) : PiState :=
  { sum := s.sum + piTerm s, sign := -s.sign, i := s.i + 1 }

/-- The loop test `i < limit`. -/
def piGuard (limit : ℤ) (s : PiState) : Bool :=
  decide (s.i < limit)

/-- The loop `for (...; i < limit; ++i) { ... }` started in state `s`: the
body is executed while the test holds; the result is the state in which the
test first fails. -/
def piLoop (limit : ℤ) (s : PiState) : PiState :=
  if piGuard limit s then piLoop limit (piBody s) else s
termination_by (limit - s.i).toNat
decreasing_by
  simp only [piGuard, decide_eq_true_eq] at *
  simp only [piBody]
  omega

/-- The body of `pi` with the literal bound abstracted: initialise, run the
loop up to `limit`, then `sum *= 4.0; return sum`. -/
def piWith (limit : ℤ) : ℚ :=
  (piLoop limit piInit).sum * 4

/-- The source function `float pi()`: `int limit = 800`. -/
def pi : ℚ :=
  let limit : ℤ := 800
  piWith limit

/-- The source function `float main()`: `return pi();`. -/
def main : ℚ :=
  pi

/-- The states in which the loop body is entered when the loop is started in
state `s`, in execution order: the same control flow as `piLoop`, recording
each state that passes the test `i < limit`. -/
def piTrace (limit : ℤ) (s : PiState) : List PiState :=
  if piGuard limit s then s :: piTrace limit (piBody s) else []
termination_by (limit - s.i).toNat
decreasing_by
  simp only [piGuard, decide_eq_true_eq] at *
  simp only [piBody]
  omega

/-- The signed terms added to `sum` by a run of `pi` with bound `limit`, in
the order in which they are added. -/
def piTerms (limit : ℤ) : List ℚ :=
  (piTrace limit piInit).map piTerm

/-- The division `1.0 / denominator` of an iteration entered in state `s`, as
a guarded operation: it has no value when the divisor is zero. -/
def piQuotient (s : PiState) : Option ℚ :=
  if piDenominator s = 0 then none else some (1 / (piDenominator s : ℚ))

/-! ## Machine integers

The same loop with `int` a signed two's-complement integer of `w` bits: every
`int` operation of the source (`2 * i`, `... + 1`, `-sign`, `++i`) is followed
by a reduction modulo `2 ^ w` into the signed range. -/

/-- The value of `x` as a signed `w`-bit integer: `x` modulo `2 ^ w`, taken in
`[-2 ^ (w - 1), 2 ^ (w - 1))`. -/
def wrapInt (w : ℕ) (x : ℤ) : ℤ :=
  (x + 2 ^ (w - 1)) % 2 ^ w - 2 ^ (w - 1)

/-- Whether `x` is the value of a signed `w`-bit integer. -/
def fitsInt (w : ℕ) (x : ℤ) : Bool :=
  decide (-(2 ^ (w - 1)) ≤ x ∧ x < 2 ^ (w - 1))

/-- The local `denominator` computed on `w`-bit integers:
`int denominator = 2 * i + 1`. -/
def piDenominatorM (w : ℕ) (s : PiState) : ℤ :=
  wrapInt w (wrapInt w (2 * s.i) + 1)

/-- The local `term` computed with a `w`-bit `denominator`:
`float term = 1.0 / denominator; term *= sign`. -/
def piTermM (w : ℕ) (s : PiState) : ℚ :=
  let term : ℚ := 1 / (piDenominatorM w s : ℚ)
  term * (s.sign : ℚ)

/-- One pass through the loop on `w`-bit integers:
`sum += term; sign = -sign` followed by `++i`. -/
def piBodyM (w : ℕ) (s : PiState) : PiState :=
  { sum := s.sum + piTermM w s, sign := wrapInt w (-s.sign), i := wrapInt w (s.i + 1) }

/-- The loop on `w`-bit integers, run for at most `fuel` passes through the
body: `none` when the test `i < limit` still holds with no fuel left. -/
def piLoopM (w : ℕ) (limit : ℤ) : ℕ → PiState → Option PiState
  | 0, s => if piGuard limit s then none else some s
  | fuel + 1, s => if piGuard limit s then piLoopM w limit fuel (piBodyM w s) else some s

/-- The function `pi` on `w`-bit integers, run for at most `fuel` passes:
`int limit = 800`, the loop, then `sum *= 4.0; return sum`. -/
def piM (w : ℕ) (fuel : ℕ) : Option ℚ :=
  let limit : ℤ := 800
  (piLoopM w limit fuel piInit).map fun s => s.sum * 4

/-! ## Binary floating point

The same function with `float` a binary32 number and `double` a binary64
number: every floating-point operation of the source computes the exact
rational result and rounds it to the format, to nearest, ties to even. The
`int` fields are as before. Values of magnitude `2 ^ 128` and above (overflow
to infinity) are outside this model. -/

/-- Rounding of a rational to the nearest integer, ties to the even one. -/
def roundHalfEven (q : ℚ) : ℤ :=
  let f : ℤ := ⌊q⌋
  let r : ℚ := q - f
  if r < 1 / 2 then f
  else if 1 / 2 < r then f + 1
  else if f % 2 = 0 then f else f + 1

/-- Rounding of a rational `q` to the binary format with `p` bits of precision
and least exponent `emin`, to nearest, ties to even: with `e` the exponent of
`q` (`2 ^ e ≤ |q| < 2 ^ (e + 1)`, not below `emin`), the result is the multiple
of the unit in the last place `2 ^ (e - (p - 1))` nearest to `q`. -/
def roundBin (p : ℕ) (emin : ℤ) (q : ℚ) : ℚ :=
  if q = 0 then 0
  else
    let e : ℤ := max (Int.log 2 |q|) emin
    let ulp : ℚ := 2 ^ (e - ((p : ℤ) - 1))
    roundHalfEven (q / ulp) * ulp

/-- Rounding to `double` (binary64: 53 bits, least exponent `-1022`). -/
def toDouble (q : ℚ) : ℚ :=
  roundBin 53 (-1022) q

/-- Rounding to `float` (binary32: 24 bits, least exponent `-126`). -/
def toFloat (q : ℚ) : ℚ :=
  roundBin 24 (-126) q

/-- The local `term` in binary floating point, at the point where it is added
to `sum`: `float term = 1.0 / denominator` is a `double` division (the
conversion of the `int` divisor is exact) stored to a `float`, and
`term *= sign` is a `float` product. -/
def piTermF (s : PiState) : ℚ :=
  let term : ℚ := toFloat (toDouble (1 / (piDenominator s : ℚ)))
  toFloat (term * (s.sign : ℚ))

/-- One pass through the loop in binary floating point: the `float` addition
`sum += term`, then `sign = -sign` and `++i`. -/
def piBodyF (s : PiState) : PiState :=
  { sum := toFloat (s.sum + piTermF s), sign := -s.sign, i := s.i + 1 }

/-- The loop in binary floating point, started in state `s`. -/
def piLoopF (limit : ℤ) (s : PiState) : PiState :=
  if piGuard limit s then piLoopF limit (piBodyF s) else s
termination_by (limit - s.i).toNat
decreasing_by
  simp only [piGuard, decide_eq_true_eq] at *
  simp only [piBodyF]
  omega

/-- The states in which the body of the floating-point loop is entered, in
execution order. -/
def piTraceF (limit : ℤ) (s : PiState) : List PiState :=
  if piGuard limit s then s :: piTraceF limit (piBodyF s) else []
termination_by (limit - s.i).toNat
decreasing_by
  simp only [piGuard, decide_eq_true_eq] at *
  simp only [piBodyF]
  omega

/-- The signed `float` terms added to `sum` by a run with bound `limit`. -/
def piTermsF (limit : ℤ) : List ℚ :=
  (piTraceF limit piInit).map piTermF

/-- The body of `pi` in binary floating point with the bound abstracted:
`sum *= 4.0` is a `double` product stored to the `float` `sum`. -/
def piWithF (limit : ℤ) : ℚ :=
  toFloat (toDouble ((piLoopF limit piInit).sum * 4))

/-- The source function `float pi()` in binary floating point. -/
def piF : ℚ :=
  let limit : ℤ := 800
  piWithF limit

/-! ## The state after `k` iterations -/

theorem iterate_i (k : ℕ) : (piBody^[k] piInit).i = k := by
  induction k with
  | zero => rfl
  | succ k ih =>
    rw [Function.iterate_succ_apply']
    simp [piBody, ih]

theorem iterate_sign (k : ℕ) : (piBody^[k] piInit).sign = (-1) ^ k := by
  induction k with
  | zero => rfl
  | succ k ih =>
    rw [Function.iterate_succ_apply']
    simp [piBody, ih, pow_succ]

theorem piTerm_iterate (k : ℕ) :
    piTerm (piBody^[k] piInit) = (-1 : ℚ) ^ k / (2 * (k : ℚ) + 1) := by
  simp only [piTerm, piDenominator, iterate_i, iterate_sign]
  push_cast
  ring

theorem iterate_sum (k : ℕ) :
    (piBody^[k] piInit).sum = ∑ j ∈ Finset.range k, (-1 : ℚ) ^ j / (2 * (j : ℚ) + 1) := by
  induction k with
  | zero => rfl
  | succ k ih =>
    rw [Function.iterate_succ_apply', Finset.sum_range_succ, ← ih, ← piTerm_iterate]
    rfl

theorem piGuard_iterate (limit : ℤ) (k : ℕ) :
    piGuard limit (piBody^[k] piInit) = decide ((k : ℤ) < limit) := by
  simp [piGuard, iterate_i]

/-! ## The loop as an iteration of its body -/

theorem piLoop_iterate_aux (N : ℕ) (d k : ℕ) (h : k + d = N) :
    piLoop N (piBody^[k] piInit) = piBody^[N] piInit := by
  induction d generalizing k with
  | zero =>
    rw [piLoop, piGuard_iterate]
    have : ¬ ((k : ℤ) < (N : ℤ)) := by omega
    simp [this]
    have : k = N := by omega
    rw [this]
  | succ d ih =>
    rw [piLoop, piGuard_iterate]
    have : (k : ℤ) < (N : ℤ) := by omega
    simp only [this, decide_True, if_true]
    have hk := ih (k + 1) (by omega)
    rwa [Function.iterate_succ_apply'] at hk

theorem piLoop_eq_iterate (N : ℕ) : piLoop N piInit = piBody^[N] piInit :=
  piLoop_iterate_aux N N 0 (by omega)

theorem piTrace_iterate_aux (N : ℕ) (d k : ℕ) (h : k + d = N) :
    piTrace N (piBody^[k] piInit) = (List.range' k d).map fun j => piBody^[j] piInit := by
  induction d generalizing k with
  | zero =>
    rw [piTrace, piGuard_iterate]
    have : ¬ ((k : ℤ) < (N : ℤ)) := by omega
    simp [this]
  | succ d ih =>
    rw [piTrace, piGuard_iterate]
    have : (k : ℤ) < (N : ℤ) := by omega
    simp only [this, decide_True, if_true]
    have hk := ih (k + 1) (by omega)
    rw [Function.iterate_succ_apply'] at hk
    rw [hk]
    simp [List.range'_succ]

theorem piTrace_eq (N : ℕ) :
    piTrace N piInit = (List.range N).map fun j => piBody^[j] piInit := by
  have := piTrace_iterate_aux N N 0 (by omega)
  simpa [List.range_eq_range'] using this

theorem piWith_eq_sum (N : ℕ) :
    piWith N = 4 * ∑ j ∈ Finset.range N, (-1 : ℚ) ^ j / (2 * (j : ℚ) + 1) := by
  rw [piWith, piLoop_eq_iterate, iterate_sum, mul_comm]

/-! ## Bounds on the partial sums of the Leibniz series -/

section Leibniz

open Filter Finset

theorem leibniz_tendsto :
    Tendsto (fun n => ∑ i ∈ range n, (-1 : ℝ) ^ i * (1 / (2 * (i : ℝ) + 1))) atTop
      (nhds (Real.pi / 4)) := by
  have h := Real.tendsto_sum_pi_div_four
  refine h.congr fun n => ?_
  refine sum_congr rfl fun i _ => ?_
  rw [mul_one_div]

theorem leibniz_term_antitone : Antitone fun i : ℕ => 1 / (2 * (i : ℝ) + 1) := by
  refine antitone_nat_of_succ_le fun n => ?_
  have h1 : (0 : ℝ) < 2 * (n : ℝ) + 1 := by positivity
  apply one_div_le_one_div_of_le h1
  push_cast
  linarith

/-- The difference of consecutive term magnitudes. -/
theorem leibniz_gap_antitone :
    Antitone fun i : ℕ => 1 / (2 * (i : ℝ) + 1) - 1 / (2 * ((i + 1 : ℕ) : ℝ) + 1) := by
  refine antitone_nat_of_succ_le fun n => ?_
  have h1 : (0 : ℝ) < 2 * (n : ℝ) + 1 := by positivity
  have h3 : (0 : ℝ) < 2 * (n : ℝ) + 3 := by positivity
  have h5 : (0 : ℝ) < 2 * (n : ℝ) + 5 := by positivity
  have e1 : 1 / (2 * (n : ℝ) + 1) - 1 / (2 * ((n + 1 : ℕ) : ℝ) + 1)
      = 2 / ((2 * (n : ℝ) + 1) * (2 * (n : ℝ) + 3)) := by
    push_cast
    field_simp
    ring
  have e2 : 1 / (2 * ((n + 1 : ℕ) : ℝ) + 1) - 1 / (2 * ((n + 1 + 1 : ℕ) : ℝ) + 1)
      = 2 / ((2 * (n : ℝ) + 3) * (2 * (n : ℝ) + 5)) := by
    push_cast
    field_simp
    ring
  show 1 / (2 * ((n + 1 : ℕ) : ℝ) + 1) - 1 / (2 * ((n + 1 + 1 : ℕ) : ℝ) + 1)
    ≤ 1 / (2 * (n : ℝ) + 1) - 1 / (2 * ((n + 1 : ℕ) : ℝ) + 1)
  rw [e1, e2]
  apply div_le_div_of_nonneg_left (by norm_num) (by positivity)
  nlinarith

theorem leibniz_gap_sum (n : ℕ) :
    ∑ i ∈ range n, (-1 : ℝ) ^ i *
        (1 / (2 * (i : ℝ) + 1) - 1 / (2 * ((i + 1 : ℕ) : ℝ) + 1))
      = (∑ i ∈ range n, (-1 : ℝ) ^ i * (1 / (2 * (i : ℝ) + 1)))
        + (∑ i ∈ range (n + 1), (-1 : ℝ) ^ i * (1 / (2 * (i : ℝ) + 1))) - 1 := by
  induction n with
  | zero => simp
  | succ n ih =>
    rw [sum_range_succ, ih, sum_range_succ _ (n + 1), sum_range_succ _ n]
    rw [pow_succ]
    ring

theorem leibniz_gap_tendsto :
    Tendsto (fun n => ∑ i ∈ range n, (-1 : ℝ) ^ i *
        (1 / (2 * (i : ℝ) + 1) - 1 / (2 * ((i + 1 : ℕ) : ℝ) + 1))) atTop
      (nhds (Real.pi / 4 + Real.pi / 4 - 1)) := by
  have h1 := leibniz_tendsto
  have h2 := h1.comp (tendsto_add_atTop_nat 1)
  have h3 := (h1.add h2).sub_const 1
  refine h3.congr fun n => ?_
  rw [leibniz_gap_sum]
  rfl

/-- Two-sided bound on the remainder of the Leibniz series after `n` terms:
the remainder has the sign of the first omitted term, is at least half of it,
and at most that term minus half of the next one. -/
theorem leibniz_remainder (n : ℕ) :
    1 / (2 * (2 * (n : ℝ) + 1))
        ≤ (-1 : ℝ) ^ n * (Real.pi / 4 - ∑ i ∈ range n, (-1 : ℝ) ^ i * (1 / (2 * (i : ℝ) + 1)))
      ∧ (-1 : ℝ) ^ n * (Real.pi / 4 - ∑ i ∈ range n, (-1 : ℝ) ^ i * (1 / (2 * (i : ℝ) + 1)))
        ≤ 1 / (2 * (n : ℝ) + 1) - 1 / (2 * (2 * (n : ℝ) + 3)) := by
  have hn1 : (0 : ℝ) < 2 * (n : ℝ) + 1 := by positivity
  have hn3 : (0 : ℝ) < 2 * (n : ℝ) + 3 := by positivity
  have ea : 1 / (2 * (2 * (n : ℝ) + 1)) = 1 / (2 * (n : ℝ) + 1) / 2 := by
    field_simp
    ring
  have eb : 1 / (2 * (2 * (n : ℝ) + 3)) = 1 / (2 * ((n + 1 : ℕ) : ℝ) + 1) / 2 := by
    push_cast
    field_simp
    ring
  rw [ea, eb]
  rcases Nat.even_or_odd' n with ⟨k, rfl | rfl⟩
  · have lo := leibniz_gap_antitone.alternating_series_le_tendsto leibniz_gap_tendsto k
    have hi := leibniz_gap_antitone.tendsto_le_alternating_series leibniz_gap_tendsto k
    rw [leibniz_gap_sum] at lo hi
    rw [sum_range_succ _ (2 * k + 1), sum_range_succ _ (2 * k)] at hi
    rw [sum_range_succ _ (2 * k)] at lo
    have p0 : (-1 : ℝ) ^ (2 * k) = 1 := by simp
    have p1 : (-1 : ℝ) ^ (2 * k + 1) = -1 := by simp [pow_succ]
    rw [p0] at lo hi ⊢
    rw [p1] at hi
    constructor <;> linarith
  · have lo := leibniz_gap_antitone.alternating_series_le_tendsto leibniz_gap_tendsto (k + 1)
    have hi := leibniz_gap_antitone.tendsto_le_alternating_series leibniz_gap_tendsto k
    rw [leibniz_gap_sum] at lo hi
    rw [show 2 * (k + 1) = 2 * k + 1 + 1 by ring,
      sum_range_succ _ (2 * k + 1 + 1), sum_range_succ _ (2 * k + 1)] at lo
    rw [sum_range_succ _ (2 * k + 1)] at hi
    have p1 : (-1 : ℝ) ^ (2 * k + 1) = -1 := by simp [pow_succ]
    have p2 : (-1 : ℝ) ^ (2 * k + 1 + 1) = 1 := by simp [pow_succ]
    rw [p1] at lo hi ⊢
    rw [p2] at lo
    constructor <;> linarith

end Leibniz

/-- The rational result of `piWith`, read as a real number. -/
theorem piWith_cast (N : ℕ) :
    ((piWith N : ℚ) : ℝ)
      = 4 * ∑ i ∈ Finset.range N, (-1 : ℝ) ^ i * (1 / (2 * (i : ℝ) + 1)) := by
  rw [piWith_eq_sum]
  push_cast
  congr 1
  refine Finset.sum_congr rfl fun i _ => ?_
  rw [mul_one_div]

/-- Signed two-sided error bound of `piWith N` against the real number pi. -/
theorem piWith_remainder (N : ℕ) :
    2 / (2 * (N : ℝ) + 1) ≤ (-1 : ℝ) ^ N * (Real.pi - (piWith N : ℚ))
      ∧ (-1 : ℝ) ^ N * (Real.pi - (piWith N : ℚ))
        ≤ 4 / (2 * (N : ℝ) + 1) - 2 / (2 * (N : ℝ) + 3) := by
  have h := leibniz_remainder N
  have hn1 : (0 : ℝ) < 2 * (N : ℝ) + 1 := by positivity
  have hn3 : (0 : ℝ) < 2 * (N : ℝ) + 3 := by positivity
  have e1 : 2 / (2 * (N : ℝ) + 1) = 4 * (1 / (2 * (2 * (N : ℝ) + 1))) := by
    field_simp
    ring
  have e2 : 4 / (2 * (N : ℝ) + 1) - 2 / (2 * (N : ℝ) + 3)
      = 4 * (1 / (2 * (N : ℝ) + 1) - 1 / (2 * (2 * (N : ℝ) + 3))) := by
    field_simp
    ring
  have e3 : (-1 : ℝ) ^ N * (Real.pi - (piWith N : ℚ))
      = 4 * ((-1 : ℝ) ^ N * (Real.pi / 4
          - ∑ i ∈ Finset.range N, (-1 : ℝ) ^ i * (1 / (2 * (i : ℝ) + 1)))) := by
    rw [piWith_cast]
    ring
  rw [e1, e2, e3]
  constructor <;> linarith [h.1, h.2]

theorem piWith_abs_error (N : ℕ) :
    |((piWith N : ℚ) : ℝ) - Real.pi| = (-1 : ℝ) ^ N * (Real.pi - (piWith N : ℚ)) := by
  have h := (piWith_remainder N).1
  have hpos : (0 : ℝ) < 2 / (2 * (N : ℝ) + 1) := by positivity
  rcases Nat.even_or_odd N with he | ho
  · rw [he.neg_one_pow] at h ⊢
    rw [abs_sub_comm, abs_of_pos (by linarith)]
    ring
  · rw [ho.neg_one_pow] at h ⊢
    rw [abs_of_pos (by linarith)]
    ring

theorem piTerms_eq (N : ℕ) :
    piTerms N = (List.range N).map fun k : ℕ => (-1 : ℚ) ^ k / (2 * (k : ℚ) + 1) := by
  rw [piTerms, piTrace_eq, List.map_map]
  refine List.map_congr_left fun k _ => ?_
  exact piTerm_iterate k

theorem piLoop_sum_eq (N : ℕ) :
    (piLoop N piInit).sum = ∑ j ∈ Finset.range N, (-1 : ℚ) ^ j / (2 * (j : ℚ) + 1) := by
  rw [piLoop_eq_iterate, iterate_sum]

theorem pi_eq_piWith : pi = piWith ((800 : ℕ) : ℤ) := rfl

/-- Signed two-sided error bound of `pi` (800 terms) against the real pi. -/
theorem pi_remainder :
    (2 : ℝ) / 1601 ≤ Real.pi - (pi : ℚ) ∧ Real.pi - (pi : ℚ) ≤ 4 / 1601 - 2 / 1603 := by
  have h := piWith_remainder 800
  rw [← pi_eq_piWith] at h
  have p : (-1 : ℝ) ^ 800 = 1 := by norm_num
  have e1 : 2 * ((800 : ℕ) : ℝ) + 1 = 1601 := by norm_num
  have e3 : 2 * ((800 : ℕ) : ℝ) + 3 = 1603 := by norm_num
  rw [p, one_mul, e1, e3] at h
  exact h

/-! ## The claims -/

/-- C1: reading the float operations as exact rational arithmetic, `pi()`
returns exactly `4 * Σ_{i=0}^{799} (-1)^i / (2i+1)`, and for every `N ≥ 0` the
computation of `pi` with `limit = N` returns `4 * Σ_{i=0}^{N-1} (-1)^i / (2i+1)`. -/
theorem pi_eq_truncated_leibniz :
    pi = 4 * ∑ i ∈ Finset.range 800, (-1 : ℚ) ^ i / (2 * (i : ℚ) + 1)
      ∧ ∀ N : ℕ, piWith N = 4 * ∑ i ∈ Finset.range N, (-1 : ℚ) ^ i / (2 * (i : ℚ) + 1) :=
  ⟨by rw [pi_eq_piWith]; exact piWith_eq_sum 800, piWith_eq_sum⟩

/-- C3, as stated, fails: the absolute error of the 800-term result does not
lie in `[5.5e-4, 6.5e-4)`. -/
theorem pi_error_not_6e4 :
    ¬ ((55 : ℝ) / 100000 ≤ |((pi : ℚ) : ℝ) - Real.pi|
        ∧ |((pi : ℚ) : ℝ) - Real.pi| < 65 / 100000) := by
  rintro ⟨-, h⟩
  rw [abs_sub_comm] at h
  have lo := pi_remainder.1
  rw [abs_of_pos (by linarith)] at h
  norm_num at lo h
  linarith

/-- C3, amended: reading the float operations as exact rational arithmetic,
the absolute error of the 800-term result is on the order of `1/800 = 1.25e-3`:
it lies in `[1.2e-3, 1.3e-3)`. -/
theorem pi_error_order :
    (12 : ℝ) / 10000 ≤ |((pi : ℚ) : ℝ) - Real.pi|
      ∧ |((pi : ℚ) : ℝ) - Real.pi| < 13 / 10000 := by
  have lo := pi_remainder.1
  have hi := pi_remainder.2
  rw [abs_sub_comm, abs_of_pos (by linarith)]
  refine ⟨?_, ?_⟩
  · norm_num at lo ⊢
    linarith
  · norm_num at hi ⊢
    linarith

/-- C4: with `limit = 800` the value returned by `pi()` equals `3.1403` when
rounded to four decimal places, and is within `4/1601` of the real pi. -/
theorem pi_value_3_1403 :
    |pi - 31403 / 10000| < 5 / 100000 ∧ |((pi : ℚ) : ℝ) - Real.pi| ≤ 4 / 1601 := by
  have lo := pi_remainder.1
  have hi := pi_remainder.2
  have g := Real.pi_gt_d6
  have l := Real.pi_lt_d6
  constructor
  · have hr : |((pi : ℚ) : ℝ) - 31403 / 10000| < 5 / 100000 := by
      rw [abs_lt]
      norm_num at lo hi g l ⊢
      constructor <;> linarith
    have hc : ((|pi - 31403 / 10000| : ℚ) : ℝ) < ((5 / 100000 : ℚ) : ℝ) := by
      rw [Rat.cast_abs]
      push_cast
      exact hr
    exact Rat.cast_lt.1 hc
  · rw [abs_sub_comm, abs_of_pos (by linarith)]
    linarith [show (0 : ℝ) ≤ 2 / 1603 by norm_num]

/-- C5: `main()` returns exactly the value that `pi()` returns. -/
theorem main_eq_pi : main = pi :=
  rfl

/-- C6: the loop of `pi` terminates after exactly `limit` passes through its
body: for every `N`, the body is entered exactly `N` times, at
`i = 0, 1, ..., N-1` in ascending order, the loop ends in the state reached by
`N` applications of the body, where the test `i < N` fails, and the value
returned is computed from that state; for the fixed bound that is 800 passes. -/
theorem pi_loop_runs_limit_times :
    (∀ N : ℕ,
        (piTrace N piInit).length = N
          ∧ (piTrace N piInit).map PiState.i = (List.range N).map Int.ofNat
          ∧ piLoop N piInit = piBody^[N] piInit
          ∧ piGuard N (piLoop N piInit) = false
          ∧ piWith N = (piBody^[N] piInit).sum * 4)
      ∧ (piTrace 800 piInit).length = 800
      ∧ pi = (piBody^[800] piInit).sum * 4 := by
  have key : ∀ N : ℕ,
      (piTrace N piInit).length = N
        ∧ (piTrace N piInit).map PiState.i = (List.range N).map Int.ofNat
        ∧ piLoop N piInit = piBody^[N] piInit
        ∧ piGuard N (piLoop N piInit) = false
        ∧ piWith N = (piBody^[N] piInit).sum * 4 := by
    intro N
    refine ⟨?_, ?_, piLoop_eq_iterate N, ?_, ?_⟩
    · simp [piTrace_eq]
    · rw [piTrace_eq, List.map_map]
      refine List.map_congr_left fun k _ => ?_
      simp [iterate_i]
    · rw [piLoop_eq_iterate, piGuard_iterate]
      simp
    · rw [piWith, piLoop_eq_iterate]
  refine ⟨key, ?_, ?_⟩
  · exact (key 800).1
  · rw [pi_eq_piWith]
    exact (key 800).2.2.2.2

/-- C7: with `limit = 1` the sum after the loop is `1.0` and the value
returned is `4.0`. -/
theorem pi_limit_one : (piLoop 1 piInit).sum = 1 ∧ piWith 1 = 4 := by
  have h : piLoop 1 piInit = piBody^[1] piInit := piLoop_eq_iterate 1
  rw [piWith, h]
  norm_num [piBody, piInit, piTerm, piDenominator]

/-! ## Signs, denominators and term magnitudes along a run -/

theorem piTrace_getElem (limit i : ℕ) (h : i < limit) :
    (piTrace limit piInit)[i]? = some (piBody^[i] piInit) := by
  rw [piTrace_eq, List.getElem?_map, List.getElem?_range h]
  rfl

theorem neg_one_pow_eq_ite (k : ℕ) : (-1 : ℤ) ^ k = if k % 2 = 0 then 1 else -1 := by
  rcases Nat.even_or_odd k with he | ho
  · rw [he.neg_one_pow, if_pos (Nat.even_iff.1 he)]
  · rw [ho.neg_one_pow, if_neg (by rw [Nat.odd_iff.1 ho]; decide)]

theorem piDenominator_iterate (k : ℕ) :
    piDenominator (piBody^[k] piInit) = 2 * (k : ℤ) + 1 := by
  rw [piDenominator, iterate_i]

theorem piQuotient_iterate (k : ℕ) :
    piQuotient (piBody^[k] piInit) = some (1 / (2 * (k : ℚ) + 1)) := by
  rw [piQuotient, piDenominator_iterate, if_neg (by omega)]
  push_cast
  rfl

theorem abs_piTerm_iterate (k : ℕ) :
    |piTerm (piBody^[k] piInit)| = 1 / (2 * (k : ℚ) + 1) := by
  have hpos : (0 : ℚ) < 2 * (k : ℚ) + 1 := by positivity
  rw [piTerm_iterate, abs_div, abs_pow, abs_neg, abs_one, one_pow, abs_of_pos hpos]

/-- C11: sign alternation. In a run with bound `limit`, for every iteration
index `i < limit` the value of `sign` on entry to iteration `i` (the value
multiplied into term `i`) is `+1` when `i` is even and `-1` when `i` is odd,
that is `(-1)^i`; the signs of the whole run are `1, -1, 1, ...`, and the
value left in `sign` when the loop ends is again `1` or `-1`. -/
theorem pi_sign_alternation (limit i : ℕ) (h : i < limit) :
    ((piTrace limit piInit)[i]?).map PiState.sign = some (if i % 2 = 0 then 1 else -1)
      ∧ ((piTrace limit piInit)[i]?).map PiState.sign = some ((-1) ^ i)
      ∧ ((piTrace limit piInit)[i]?).map piTerm
          = some (1 / (2 * (i : ℚ) + 1) * ((if i % 2 = 0 then 1 else -1 : ℤ) : ℚ))
      ∧ (piTrace limit piInit).map PiState.sign
          = (List.range limit).map (fun k => if k % 2 = 0 then 1 else -1)
      ∧ ((piLoop limit piInit).sign = 1 ∨ (piLoop limit piInit).sign = -1) := by
  refine ⟨?_, ?_, ?_, ?_, ?_⟩
  · rw [piTrace_getElem limit i h, Option.map_some', iterate_sign, neg_one_pow_eq_ite]
  · rw [piTrace_getElem limit i h, Option.map_some', iterate_sign]
  · rw [piTrace_getElem limit i h, Option.map_some', ← neg_one_pow_eq_ite, piTerm,
      piDenominator_iterate, iterate_sign]
    push_cast
    rfl
  · rw [piTrace_eq, List.map_map]
    refine List.map_congr_left fun k _ => ?_
    show (piBody^[k] piInit).sign = _
    rw [iterate_sign, neg_one_pow_eq_ite]
  · rw [piLoop_eq_iterate, iterate_sign]
    rcases Nat.even_or_odd limit with he | ho
    · exact Or.inl he.neg_one_pow
    · exact Or.inr ho.neg_one_pow

theorem pi_sign_alternation_witness :
    1 < 3
      ∧ ((piTrace ((3 : ℕ) : ℤ) piInit)[1]?).map PiState.sign
        = some (if 1 % 2 = 0 then 1 else -1)
      ∧ ((piTrace ((3 : ℕ) : ℤ) piInit)[1]?).map PiState.sign = some ((-1) ^ 1)
      ∧ ((piTrace ((3 : ℕ) : ℤ) piInit)[1]?).map piTerm
          = some (1 / (2 * ((1 : ℕ) : ℚ) + 1) * ((if 1 % 2 = 0 then 1 else -1 : ℤ) : ℚ))
      ∧ (piTrace ((3 : ℕ) : ℤ) piInit).map PiState.sign
          = (List.range 3).map (fun k => if k % 2 = 0 then 1 else -1)
      ∧ ((piLoop ((3 : ℕ) : ℤ) piInit).sign = 1 ∨ (piLoop ((3 : ℕ) : ℤ) piInit).sign = -1) :=
  ⟨by decide, pi_sign_alternation 3 1 (by decide)⟩

/-- C12: monotone term decrease. The magnitude `1 / (2i+1)` of the unsigned
term computed in iteration `i` is strictly decreasing in `i`: for `i < j` the
quotient `1.0 / denominator` of iteration `j` is smaller than that of
iteration `i`, and so is the magnitude of the signed term; every term
magnitude lies in `(0, 1]`. -/
theorem pi_term_magnitude_decreasing (i j : ℕ) (h : i < j) :
    1 / (piDenominator (piBody^[j] piInit) : ℚ) < 1 / (piDenominator (piBody^[i] piInit) : ℚ)
      ∧ |piTerm (piBody^[j] piInit)| < |piTerm (piBody^[i] piInit)|
      ∧ 1 / (piDenominator (piBody^[i] piInit) : ℚ) = 1 / (2 * (i : ℚ) + 1)
      ∧ |piTerm (piBody^[i] piInit)| = 1 / (2 * (i : ℚ) + 1)
      ∧ 0 < |piTerm (piBody^[i] piInit)| ∧ |piTerm (piBody^[i] piInit)| ≤ 1
      ∧ 0 < |piTerm (piBody^[j] piInit)| ∧ |piTerm (piBody^[j] piInit)| ≤ 1 := by
  have hi : (0 : ℚ) < 2 * (i : ℚ) + 1 := by positivity
  have hj : (0 : ℚ) < 2 * (j : ℚ) + 1 := by positivity
  have hij : (i : ℚ) < (j : ℚ) := by exact_mod_cast h
  have hlt : 1 / (2 * (j : ℚ) + 1) < 1 / (2 * (i : ℚ) + 1) :=
    one_div_lt_one_div_of_lt hi (by linarith)
  have one_i : 1 / (2 * (i : ℚ) + 1) ≤ 1 := by
    rw [div_le_one hi]
    linarith [show (0 : ℚ) ≤ (i : ℚ) by positivity]
  have one_j : 1 / (2 * (j : ℚ) + 1) ≤ 1 := by
    rw [div_le_one hj]
    linarith [show (0 : ℚ) ≤ (j : ℚ) by positivity]
  have di : (piDenominator (piBody^[i] piInit) : ℚ) = 2 * (i : ℚ) + 1 := by
    rw [piDenominator_iterate]
    push_cast
    rfl
  have dj : (piDenominator (piBody^[j] piInit) : ℚ) = 2 * (j : ℚ) + 1 := by
    rw [piDenominator_iterate]
    push_cast
    rfl
  rw [di, dj, abs_piTerm_iterate, abs_piTerm_iterate]
  exact ⟨hlt, hlt, rfl, rfl, by positivity, one_i, by positivity, one_j⟩

theorem pi_term_magnitude_decreasing_witness :
    1 < 2
      ∧ 1 / (piDenominator (piBody^[2] piInit) : ℚ) < 1 / (piDenominator (piBody^[1] piInit) : ℚ)
      ∧ |piTerm (piBody^[2] piInit)| < |piTerm (piBody^[1] piInit)|
      ∧ 1 / (piDenominator (piBody^[1] piInit) : ℚ) = 1 / (2 * ((1 : ℕ) : ℚ) + 1)
      ∧ |piTerm (piBody^[1] piInit)| = 1 / (2 * ((1 : ℕ) : ℚ) + 1)
      ∧ 0 < |piTerm (piBody^[1] piInit)| ∧ |piTerm (piBody^[1] piInit)| ≤ 1
      ∧ 0 < |piTerm (piBody^[2] piInit)| ∧ |piTerm (piBody^[2] piInit)| ≤ 1 :=
  ⟨by decide, pi_term_magnitude_decreasing 1 2 (by decide)⟩

/-- C13: no division by zero. In a run with bound `limit`, for every iteration
index `i < limit` the divisor `denominator` of iteration `i` is `2i+1`, an odd
integer that is at least 1, so the guarded division `1.0 / denominator` has a
value; over the whole run the divisors are `1, 3, 5, ...` and no guarded
division is without value. -/
theorem pi_denominator_odd_positive (limit i : ℕ) (h : i < limit) :
    (∃ d : ℤ, ((piTrace limit piInit)[i]?).map piDenominator = some d
        ∧ d = 2 * (i : ℤ) + 1 ∧ 1 ≤ d ∧ d % 2 = 1 ∧ d ≠ 0)
      ∧ ((piTrace limit piInit)[i]?).bind piQuotient = some (1 / (2 * (i : ℚ) + 1))
      ∧ (piTrace limit piInit).map piDenominator
          = (List.range limit).map (fun k : ℕ => 2 * (k : ℤ) + 1)
      ∧ (piTrace limit piInit).map piQuotient
          = (List.range limit).map (fun k : ℕ => some (1 / (2 * (k : ℚ) + 1))) := by
  refine ⟨⟨2 * (i : ℤ) + 1, ?_, rfl, by omega, by omega, by omega⟩, ?_, ?_, ?_⟩
  · rw [piTrace_getElem limit i h, Option.map_some', piDenominator_iterate]
  · rw [piTrace_getElem limit i h, Option.some_bind, piQuotient_iterate]
  · rw [piTrace_eq, List.map_map]
    refine List.map_congr_left fun k _ => ?_
    exact piDenominator_iterate k
  · rw [piTrace_eq, List.map_map]
    refine List.map_congr_left fun k _ => ?_
    exact piQuotient_iterate k

theorem pi_denominator_odd_positive_witness :
    2 < 3
      ∧ (∃ d : ℤ, ((piTrace ((3 : ℕ) : ℤ) piInit)[2]?).map piDenominator = some d
        ∧ d = 2 * ((2 : ℕ) : ℤ) + 1 ∧ 1 ≤ d ∧ d % 2 = 1 ∧ d ≠ 0)
      ∧ ((piTrace ((3 : ℕ) : ℤ) piInit)[2]?).bind piQuotient
          = some (1 / (2 * ((2 : ℕ) : ℚ) + 1))
      ∧ (piTrace ((3 : ℕ) : ℤ) piInit).map piDenominator
          = (List.range 3).map (fun k : ℕ => 2 * (k : ℤ) + 1)
      ∧ (piTrace ((3 : ℕ) : ℤ) piInit).map piQuotient
          = (List.range 3).map (fun k : ℕ => some (1 / (2 * (k : ℚ) + 1))) :=
  ⟨by decide, pi_denominator_odd_positive 3 2 (by decide)⟩

/-! ## Range of the accumulator -/

theorem iterate_sum_succ (n : ℕ) :
    (piBody^[n + 1] piInit).sum
      = (piBody^[n] piInit).sum + (-1 : ℚ) ^ n / (2 * (n : ℚ) + 1) := by
  rw [Function.iterate_succ_apply', ← piTerm_iterate]
  rfl

/-- Consecutive odd and even partial sums stay between `2/3` and `1`. -/
theorem iterate_sum_pair (k : ℕ) :
    2 / 3 ≤ (piBody^[2 * k + 2] piInit).sum
      ∧ (piBody^[2 * k + 1] piInit).sum ≤ 1
      ∧ (piBody^[2 * k + 2] piInit).sum
          = (piBody^[2 * k + 1] piInit).sum - 1 / (4 * (k : ℚ) + 3) := by
  induction k with
  | zero => norm_num [piBody, piInit, piTerm, piDenominator]
  | succ k ih =>
    obtain ⟨h1, h2, h3⟩ := ih
    have e1 := iterate_sum_succ (2 * k + 2)
    have e2 := iterate_sum_succ (2 * k + 2 + 1)
    have p2 : (-1 : ℚ) ^ (2 * k + 2) = 1 := Even.neg_one_pow ⟨k + 1, by ring⟩
    have p3 : (-1 : ℚ) ^ (2 * k + 2 + 1) = -1 := by rw [pow_succ, p2]; ring
    rw [p2] at e1
    rw [p3] at e2
    have c2 : 2 * ((2 * k + 2 : ℕ) : ℚ) + 1 = 4 * (k : ℚ) + 5 := by push_cast; ring
    have c3 : 2 * ((2 * k + 2 + 1 : ℕ) : ℚ) + 1 = 4 * (k : ℚ) + 7 := by push_cast; ring
    rw [c2] at e1
    rw [c3] at e2
    have k0 : (0 : ℚ) ≤ (k : ℚ) := by positivity
    have a35 : 1 / (4 * (k : ℚ) + 5) ≤ 1 / (4 * (k : ℚ) + 3) :=
      one_div_le_one_div_of_le (by linarith) (by linarith)
    have a57 : 1 / (4 * (k : ℚ) + 7) ≤ 1 / (4 * (k : ℚ) + 5) :=
      one_div_le_one_div_of_le (by linarith) (by linarith)
    have n7 : -1 / (4 * (k : ℚ) + 7) = -(1 / (4 * (k : ℚ) + 7)) := by ring
    rw [n7] at e2
    rw [show 2 * (k + 1) + 2 = 2 * k + 2 + 1 + 1 by ring,
      show 2 * (k + 1) + 1 = 2 * k + 2 + 1 by ring]
    refine ⟨by linarith, by linarith, ?_⟩
    rw [e2]
    push_cast
    ring

theorem iterate_sum_bounds (n : ℕ) (h : 1 ≤ n) :
    2 / 3 ≤ (piBody^[n] piInit).sum ∧ (piBody^[n] piInit).sum ≤ 1 := by
  rcases Nat.even_or_odd' n with ⟨k, rfl | rfl⟩
  · obtain ⟨j, rfl⟩ : ∃ j, k = j + 1 := ⟨k - 1, by omega⟩
    obtain ⟨h1, h2, h3⟩ := iterate_sum_pair j
    have k0 : (0 : ℚ) ≤ 1 / (4 * (j : ℚ) + 3) := by positivity
    rw [show 2 * (j + 1) = 2 * j + 2 by ring]
    exact ⟨h1, by linarith⟩
  · obtain ⟨h1, h2, h3⟩ := iterate_sum_pair k
    have k0 : (0 : ℚ) ≤ 1 / (4 * (k : ℚ) + 3) := by positivity
    exact ⟨by linarith, h2⟩

/-- C14: no overflow of the accumulator. After every number `n ≥ 1` of passes
through the loop body the partial sum lies in `[2/3, 1]` (it is `0` before the
first pass), so for every bound `n ≥ 1` the value returned lies in `[8/3, 4]`. -/
theorem pi_accumulator_range (n : ℕ) (h : 1 ≤ n) :
    (2 / 3 ≤ (piBody^[n] piInit).sum ∧ (piBody^[n] piInit).sum ≤ 1)
      ∧ (piBody^[0] piInit).sum = 0
      ∧ (2 / 3 ≤ (piLoop n piInit).sum ∧ (piLoop n piInit).sum ≤ 1)
      ∧ (8 / 3 ≤ piWith n ∧ piWith n ≤ 4) := by
  have hb := iterate_sum_bounds n h
  refine ⟨hb, rfl, ?_, ?_⟩
  · rw [piLoop_eq_iterate]
    exact hb
  · rw [piWith, piLoop_eq_iterate]
    constructor <;> linarith [hb.1, hb.2]

theorem pi_accumulator_range_witness :
    1 ≤ 2
      ∧ (2 / 3 ≤ (piBody^[2] piInit).sum ∧ (piBody^[2] piInit).sum ≤ 1)
      ∧ (piBody^[0] piInit).sum = 0
      ∧ (2 / 3 ≤ (piLoop ((2 : ℕ) : ℤ) piInit).sum ∧ (piLoop ((2 : ℕ) : ℤ) piInit).sum ≤ 1)
      ∧ (8 / 3 ≤ piWith ((2 : ℕ) : ℤ) ∧ piWith ((2 : ℕ) : ℤ) ≤ 4) :=
  ⟨by decide, pi_accumulator_range 2 (by decide)⟩

/-- C15: the truncated result is on a known side of pi. For every even bound
`2k` the value returned is strictly less than the real number pi, for every
odd bound `2k+1` it is strictly greater, and the fixed bound 800 is even, so
`pi()` is strictly less than pi. -/
theorem pi_side_of_real_pi :
    (∀ k : ℕ, ((piWith ((2 * k : ℕ) : ℤ) : ℚ) : ℝ) < Real.pi)
      ∧ (∀ k : ℕ, Real.pi < ((piWith ((2 * k + 1 : ℕ) : ℤ) : ℚ) : ℝ))
      ∧ ((pi : ℚ) : ℝ) < Real.pi := by
  refine ⟨fun k => ?_, fun k => ?_, ?_⟩
  · have h := (piWith_remainder (2 * k)).1
    have hpos : (0 : ℝ) < 2 / (2 * ((2 * k : ℕ) : ℝ) + 1) := by positivity
    have p : (-1 : ℝ) ^ (2 * k) = 1 := Even.neg_one_pow ⟨k, by ring⟩
    rw [p, one_mul] at h
    linarith
  · have h := (piWith_remainder (2 * k + 1)).1
    have hpos : (0 : ℝ) < 2 / (2 * ((2 * k + 1 : ℕ) : ℝ) + 1) := by positivity
    have p : (-1 : ℝ) ^ (2 * k + 1) = -1 := Odd.neg_one_pow ⟨k, rfl⟩
    rw [p] at h
    linarith
  · have h := pi_remainder.1
    linarith [show (0 : ℝ) < 2 / 1601 by norm_num]

/-! ## Machine integers agree with unbounded integers -/

theorem two_pow_pred_ge (w : ℕ) (hw : 16 ≤ w) : (32768 : ℤ) ≤ 2 ^ (w - 1) := by
  have h : (2 : ℤ) ^ 15 ≤ 2 ^ (w - 1) := pow_le_pow_right₀ (by norm_num) (by omega)
  norm_num at h
  exact h

theorem wrapInt_of_fits (w : ℕ) (x : ℤ) (hw : 1 ≤ w)
    (h1 : -(2 ^ (w - 1)) ≤ x) (h2 : x < 2 ^ (w - 1)) : wrapInt w x = x := by
  have hp : (2 : ℤ) ^ w = 2 * 2 ^ (w - 1) := by
    rw [← pow_succ']
    congr 1
    omega
  rw [wrapInt, Int.emod_eq_of_lt (by linarith) (by linarith)]
  ring

/-- Outside the signed range the reduction does change the value: the 16-bit
successor of `32767` is `-32768`. -/
theorem wrapInt_wraps : wrapInt 16 (32767 + 1) = -32768 ∧ fitsInt 16 (32767 + 1) = false := by
  constructor
  · norm_num [wrapInt]
  · simp only [fitsInt, decide_eq_false_iff_not]
    norm_num

theorem wrapInt_small (w : ℕ) (x : ℤ) (hw : 16 ≤ w) (h1 : -32768 ≤ x) (h2 : x ≤ 32767) :
    wrapInt w x = x := by
  have hp := two_pow_pred_ge w hw
  exact wrapInt_of_fits w x (by omega) (by linarith) (by linarith)

theorem fitsInt16_iff (x : ℤ) : fitsInt 16 x = true ↔ -32768 ≤ x ∧ x ≤ 32767 := by
  simp only [fitsInt, decide_eq_true_eq]
  norm_num
  intro _
  omega

/-- On the states of a run of at most 800 passes, the `w`-bit loop body
computes what the unbounded one does. -/
theorem piBodyM_iterate (w k : ℕ) (hw : 16 ≤ w) (hk : k < 800) :
    piBodyM w (piBody^[k] piInit) = piBody (piBody^[k] piInit) := by
  have hi := iterate_i k
  have hs : (piBody^[k] piInit).sign = 1 ∨ (piBody^[k] piInit).sign = -1 := by
    rw [iterate_sign]
    rcases Nat.even_or_odd k with he | ho
    · exact Or.inl he.neg_one_pow
    · exact Or.inr ho.neg_one_pow
  have hd : piDenominatorM w (piBody^[k] piInit) = piDenominator (piBody^[k] piInit) := by
    rw [piDenominatorM, piDenominator, hi,
      wrapInt_small w (2 * (k : ℤ)) hw (by omega) (by omega),
      wrapInt_small w (2 * (k : ℤ) + 1) hw (by omega) (by omega)]
  have ht : piTermM w (piBody^[k] piInit) = piTerm (piBody^[k] piInit) := by
    rw [piTermM, piTerm, hd]
  have hn : wrapInt w (-(piBody^[k] piInit).sign) = -(piBody^[k] piInit).sign := by
    apply wrapInt_small w _ hw <;> rcases hs with h | h <;> rw [h] <;> norm_num
  have hc : wrapInt w ((piBody^[k] piInit).i + 1) = (piBody^[k] piInit).i + 1 := by
    rw [hi]
    exact wrapInt_small w _ hw (by omega) (by omega)
  rw [piBodyM, piBody, ht, hn, hc]

theorem piLoopM_iterate_aux (w extra : ℕ) (hw : 16 ≤ w) (d k : ℕ) (h : k + d = 800) :
    piLoopM w 800 (d + extra) (piBody^[k] piInit) = some (piBody^[800] piInit) := by
  induction d generalizing k with
  | zero =>
    have hk : k = 800 := by omega
    subst hk
    have hg : piGuard 800 (piBody^[800] piInit) = false := by
      rw [piGuard_iterate]
      decide
    rw [Nat.zero_add]
    generalize piBody^[800] piInit = s at hg ⊢
    cases extra with
    | zero => rw [piLoopM, hg]; rfl
    | succ e => rw [piLoopM, hg]; rfl
  | succ d ih =>
    have hg : piGuard 800 (piBody^[k] piInit) = true := by
      rw [piGuard_iterate]
      simp only [decide_eq_true_eq]
      omega
    have hk := ih (k + 1) (by omega)
    rw [Function.iterate_succ_apply', ← piBodyM_iterate w k hw (by omega)] at hk
    rw [show d + 1 + extra = (d + extra) + 1 by ring, piLoopM, if_pos hg]
    exact hk

theorem piLoopM_eq (w extra : ℕ) (hw : 16 ≤ w) :
    piLoopM w 800 (800 + extra) piInit = some (piLoop 800 piInit) := by
  have h := piLoopM_iterate_aux w extra hw 800 0 (by omega)
  have e : piLoop 800 piInit = piBody^[800] piInit := piLoop_eq_iterate 800
  rw [e]
  exact h

theorem piDenominatorM_iterate (w k : ℕ) (hw : 16 ≤ w) (hk : k < 800) :
    piDenominatorM w (piBody^[k] piInit) = piDenominator (piBody^[k] piInit) := by
  rw [piDenominatorM, piDenominator, iterate_i,
    wrapInt_small w (2 * (k : ℤ)) hw (by omega) (by omega),
    wrapInt_small w (2 * (k : ℤ) + 1) hw (by omega) (by omega)]

/-- C16: the integer arithmetic of `pi` never overflows. In the run with
`limit = 800`, on entry to every iteration `k < 800` the counter `i` is in
`[0, 799]` (so `i + 1` is at most 800), `denominator` is in `[1, 1599]` and
`sign` is `1` or `-1`; `i`, `sign`, `2 * i`, `2 * i + 1`, `-sign` and `i + 1`
all fit a signed 16-bit integer; and for every width `w ≥ 16` the loop body,
the loop and `pi` computed on `w`-bit integers give the results of unbounded
integer arithmetic (the loop ends after 800 passes with `i = 800`). -/
theorem pi_int_no_overflow (w k : ℕ) (hw : 16 ≤ w) (hk : k < 800) :
    (∃ s : PiState, (piTrace 800 piInit)[k]? = some s
        ∧ (0 ≤ s.i ∧ s.i + 1 ≤ 800)
        ∧ (1 ≤ piDenominator s ∧ piDenominator s ≤ 1599)
        ∧ (s.sign = 1 ∨ s.sign = -1)
        ∧ fitsInt 16 s.i = true ∧ fitsInt 16 s.sign = true
        ∧ fitsInt 16 (2 * s.i) = true ∧ fitsInt 16 (2 * s.i + 1) = true
        ∧ fitsInt 16 (-s.sign) = true ∧ fitsInt 16 (s.i + 1) = true
        ∧ piDenominatorM w s = piDenominator s
        ∧ piBodyM w s = piBody s)
      ∧ ((piLoop 800 piInit).i = 800
          ∧ ((piLoop 800 piInit).sign = 1 ∨ (piLoop 800 piInit).sign = -1))
      ∧ (∀ extra : ℕ, piLoopM w 800 (800 + extra) piInit = some (piLoop 800 piInit))
      ∧ (∀ extra : ℕ, piM w (800 + extra) = some pi) := by
  have hi := iterate_i k
  have hs : (piBody^[k] piInit).sign = 1 ∨ (piBody^[k] piInit).sign = -1 := by
    rw [iterate_sign]
    rcases Nat.even_or_odd k with he | ho
    · exact Or.inl he.neg_one_pow
    · exact Or.inr ho.neg_one_pow
  have hd := piDenominator_iterate k
  have he : piLoop 800 piInit = piBody^[800] piInit := piLoop_eq_iterate 800
  refine ⟨⟨piBody^[k] piInit, piTrace_getElem 800 k hk, ?_, ?_, hs, ?_, ?_, ?_, ?_, ?_, ?_,
    piDenominatorM_iterate w k hw hk, piBodyM_iterate w k hw hk⟩, ⟨?_, ?_⟩, ?_, ?_⟩
  · rw [hi]; omega
  · rw [hd]; omega
  · rw [fitsInt16_iff, hi]; omega
  · rw [fitsInt16_iff]; rcases hs with h | h <;> rw [h] <;> norm_num
  · rw [fitsInt16_iff, hi]; omega
  · rw [fitsInt16_iff, hi]; omega
  · rw [fitsInt16_iff]; rcases hs with h | h <;> rw [h] <;> norm_num
  · rw [fitsInt16_iff, hi]; omega
  · rw [he]
    exact iterate_i 800
  · rw [he, iterate_sign]
    exact Or.inl (Even.neg_one_pow ⟨400, rfl⟩)
  · exact fun extra => piLoopM_eq w extra hw
  · intro extra
    show (piLoopM w 800 (800 + extra) piInit).map (fun s => s.sum * 4) = some pi
    rw [piLoopM_eq w extra hw]
    rfl

theorem pi_int_no_overflow_witness :
    (16 ≤ 16 ∧ 799 < 800)
      ∧ (∃ s : PiState, (piTrace 800 piInit)[799]? = some s
        ∧ (0 ≤ s.i ∧ s.i + 1 ≤ 800)
        ∧ (1 ≤ piDenominator s ∧ piDenominator s ≤ 1599)
        ∧ (s.sign = 1 ∨ s.sign = -1)
        ∧ fitsInt 16 s.i = true ∧ fitsInt 16 s.sign = true
        ∧ fitsInt 16 (2 * s.i) = true ∧ fitsInt 16 (2 * s.i + 1) = true
        ∧ fitsInt 16 (-s.sign) = true ∧ fitsInt 16 (s.i + 1) = true
        ∧ piDenominatorM 16 s = piDenominator s
        ∧ piBodyM 16 s = piBody s)
      ∧ ((piLoop 800 piInit).i = 800
          ∧ ((piLoop 800 piInit).sign = 1 ∨ (piLoop 800 piInit).sign = -1))
      ∧ (∀ extra : ℕ, piLoopM 16 800 (800 + extra) piInit = some (piLoop 800 piInit))
      ∧ (∀ extra : ℕ, piM 16 (800 + extra) = some pi) :=
  ⟨⟨by decide, by decide⟩, pi_int_no_overflow 16 799 (by decide) (by decide)⟩

/-! ## Binary floating point: rounding -/

theorem roundHalfEven_cases (q : ℚ) :
    roundHalfEven q = ⌊q⌋ ∨ roundHalfEven q = ⌊q⌋ + 1 := by
  unfold roundHalfEven
  simp only []
  split_ifs <;> simp

theorem roundHalfEven_err (q : ℚ) : |(roundHalfEven q : ℚ) - q| ≤ 1 / 2 := by
  have h1 : ((⌊q⌋ : ℤ) : ℚ) ≤ q := Int.floor_le q
  have h2 : q < ((⌊q⌋ : ℤ) : ℚ) + 1 := Int.lt_floor_add_one q
  unfold roundHalfEven
  simp only []
  rw [abs_le]
  split_ifs with a b c
  · constructor <;> linarith
  · push_cast; constructor <;> linarith
  · constructor <;> linarith
  · push_cast; constructor <;> linarith

theorem roundHalfEven_eq (q : ℚ) (n : ℤ) (h : |q - n| < 1 / 2) : roundHalfEven q = n := by
  have e := roundHalfEven_err q
  have h3 : |((roundHalfEven q - n : ℤ) : ℚ)| < 1 := by
    push_cast
    have : (roundHalfEven q : ℚ) - n = ((roundHalfEven q : ℚ) - q) + (q - n) := by ring
    rw [this]
    calc |((roundHalfEven q : ℚ) - q) + (q - n)| ≤ |(roundHalfEven q : ℚ) - q| + |q - n| := abs_add _ _
      _ < 1 := by linarith
  rw [← Int.cast_abs] at h3
  have h4 : |roundHalfEven q - n| < 1 := by exact_mod_cast h3
  have h5 : roundHalfEven q - n = 0 := by
    rw [abs_lt] at h4
    omega
  omega

theorem roundHalfEven_le (q : ℚ) (m : ℤ) (h : q ≤ m) : roundHalfEven q ≤ m := by
  rcases eq_or_lt_of_le h with h0 | h0
  · rw [roundHalfEven_eq q m (by rw [h0]; norm_num)]
  · have hf : ⌊q⌋ < m := Int.floor_lt.2 h0
    rcases roundHalfEven_cases q with c | c <;> rw [c] <;> omega

theorem le_roundHalfEven (q : ℚ) (m : ℤ) (h : (m : ℚ) ≤ q) : m ≤ roundHalfEven q := by
  have hf : m ≤ ⌊q⌋ := Int.le_floor.2 h
  rcases roundHalfEven_cases q with c | c <;> rw [c] <;> omega

theorem abs_roundHalfEven_le (q : ℚ) (m : ℤ) (h : |q| ≤ m) : |(roundHalfEven q : ℚ)| ≤ m := by
  rw [abs_le] at h ⊢
  have h1 := roundHalfEven_le q m h.2
  have h2 := le_roundHalfEven q (-m) (by push_cast; exact h.1)
  constructor
  · have : ((-m : ℤ) : ℚ) ≤ (roundHalfEven q : ℚ) := by exact_mod_cast h2
    push_cast at this; exact this
  · exact_mod_cast h1


theorem log_abs_le (q : ℚ) (E : ℤ) (hq0 : q ≠ 0) (hq : |q| < 2 ^ (E + 1)) :
    Int.log 2 |q| ≤ E := by
  have hpos : 0 < |q| := abs_pos.2 hq0
  have h : |q| < ((2 : ℕ) : ℚ) ^ (E + 1) := by exact_mod_cast hq
  have := (Int.lt_zpow_iff_log_lt (by norm_num : 1 < 2) hpos).1 h
  omega

theorem le_log_abs (q : ℚ) (e : ℤ) (hq : 2 ^ e ≤ |q|) : e ≤ Int.log 2 |q| := by
  have hpos : 0 < |q| := lt_of_lt_of_le (by positivity) hq
  have h : ((2 : ℕ) : ℚ) ^ e ≤ |q| := by exact_mod_cast hq
  exact (Int.zpow_le_iff_le_log (by norm_num : 1 < 2) hpos).1 h

theorem abs_lt_zpow_log (q : ℚ) : |q| < 2 ^ (Int.log 2 |q| + 1) := by
  have := Int.lt_zpow_succ_log_self (by norm_num : 1 < 2) |q|
  exact_mod_cast this

/-- The value of a rounding whose exponent and nearest multiple are known. -/
theorem roundBin_eq (p : ℕ) (emin : ℤ) (q : ℚ) (e n : ℤ) (u : ℚ) (he : emin ≤ e)
    (h0 : 2 ^ e ≤ |q|) (h1 : |q| < 2 ^ (e + 1)) (hu : (2 : ℚ) ^ (e - ((p : ℤ) - 1)) = u)
    (hn : roundHalfEven (q / u) = n) :
    roundBin p emin q = n * u := by
  have hq0 : q ≠ 0 := by
    intro h
    rw [h, abs_zero] at h0
    exact absurd h0 (not_le.2 (by positivity))
  have hl : Int.log 2 |q| = e := le_antisymm (log_abs_le q e hq0 h1) (le_log_abs q e h0)
  rw [roundBin, if_neg hq0]
  simp only []
  rw [hl, max_eq_left he, hu, hn]

/-- A tie is rounded to the even neighbour. -/
theorem roundHalfEven_tie (q : ℚ) (n : ℤ) (h : q = n + 1 / 2) (he : n % 2 = 0) :
    roundHalfEven q = n := by
  have hf : ⌊q⌋ = n := by
    rw [Int.floor_eq_iff, h]
    constructor <;> linarith
  unfold roundHalfEven
  simp only []
  rw [hf, h]
  have e1 : (n : ℚ) + 1 / 2 - n = 1 / 2 := by ring
  rw [e1, if_neg (lt_irrefl _), if_neg (lt_irrefl _), if_pos he]

/-- Rounding moves a value by at most half a unit in the last place. -/
theorem roundBin_abs_err (p : ℕ) (emin : ℤ) (q : ℚ) (E : ℤ) (hE : emin ≤ E)
    (hq : |q| < 2 ^ (E + 1)) : |roundBin p emin q - q| ≤ 2 ^ (E - (p : ℤ)) := by
  by_cases hq0 : q = 0
  · rw [roundBin, if_pos hq0, hq0]
    simp only [sub_zero, abs_zero]
    positivity
  · have hl := log_abs_le q E hq0 hq
    have hm : max (Int.log 2 |q|) emin ≤ E := max_le hl hE
    rw [roundBin, if_neg hq0]
    simp only []
    generalize max (Int.log 2 |q|) emin = e at hm
    have hu : (0 : ℚ) < 2 ^ (e - ((p : ℤ) - 1)) := by positivity
    have hr := roundHalfEven_err (q / 2 ^ (e - ((p : ℤ) - 1)))
    have e1 : (roundHalfEven (q / 2 ^ (e - ((p : ℤ) - 1))) : ℚ) * 2 ^ (e - ((p : ℤ) - 1)) - q
        = ((roundHalfEven (q / 2 ^ (e - ((p : ℤ) - 1))) : ℚ) - q / 2 ^ (e - ((p : ℤ) - 1)))
          * 2 ^ (e - ((p : ℤ) - 1)) := by
      field_simp
    rw [e1, abs_mul, abs_of_pos hu]
    have e2 : (2 : ℚ) ^ (E - (p : ℤ)) = 1 / 2 * 2 ^ (E - ((p : ℤ) - 1)) := by
      rw [show E - ((p : ℤ) - 1) = (E - (p : ℤ)) + 1 by ring, zpow_add_one₀ (by norm_num)]
      ring
    rw [e2]
    have hmono : (2 : ℚ) ^ (e - ((p : ℤ) - 1)) ≤ 2 ^ (E - ((p : ℤ) - 1)) :=
      zpow_le_zpow_right₀ (by norm_num) (by omega)
    calc _ ≤ 1 / 2 * (2 : ℚ) ^ (e - ((p : ℤ) - 1)) := by
          exact mul_le_mul_of_nonneg_right hr hu.le
      _ ≤ 1 / 2 * 2 ^ (E - ((p : ℤ) - 1)) := by
          exact mul_le_mul_of_nonneg_left hmono (by norm_num)

/-- A rounded value is no larger than the power of two above the argument. -/
theorem roundBin_abs_le (p : ℕ) (emin : ℤ) (q : ℚ) (E : ℤ) (hE : emin ≤ E)
    (hq : |q| < 2 ^ (E + 1)) : |roundBin p emin q| ≤ 2 ^ (E + 1) := by
  by_cases hq0 : q = 0
  · rw [roundBin, if_pos hq0, abs_zero]
    positivity
  · have hl := log_abs_le q E hq0 hq
    have hm : max (Int.log 2 |q|) emin ≤ E := max_le hl hE
    have hlt := abs_lt_zpow_log q
    have hle : Int.log 2 |q| ≤ max (Int.log 2 |q|) emin := le_max_left _ _
    rw [roundBin, if_neg hq0]
    simp only []
    generalize max (Int.log 2 |q|) emin = e at hm hle
    have hu : (0 : ℚ) < 2 ^ (e - ((p : ℤ) - 1)) := by positivity
    have hx : |q / 2 ^ (e - ((p : ℤ) - 1))| ≤ ((2 ^ p : ℤ) : ℚ) := by
      rw [abs_div, abs_of_pos hu, div_le_iff₀ hu]
      push_cast
      have e3 : (2 : ℚ) ^ p * 2 ^ (e - ((p : ℤ) - 1)) = 2 ^ (e + 1) := by
        rw [← zpow_natCast, ← zpow_add₀ (by norm_num)]
        congr 1
        ring
      rw [e3]
      exact le_trans hlt.le (zpow_le_zpow_right₀ (by norm_num) (by omega))
    have hn := abs_roundHalfEven_le _ _ hx
    rw [abs_mul, abs_of_pos hu]
    have e3 : ((2 ^ p : ℤ) : ℚ) * 2 ^ (e - ((p : ℤ) - 1)) = 2 ^ (e + 1) := by
      push_cast
      rw [← zpow_natCast, ← zpow_add₀ (by norm_num)]
      congr 1
      ring
    calc _ ≤ ((2 ^ p : ℤ) : ℚ) * 2 ^ (e - ((p : ℤ) - 1)) :=
          mul_le_mul_of_nonneg_right hn hu.le
      _ = 2 ^ (e + 1) := e3
      _ ≤ 2 ^ (E + 1) := zpow_le_zpow_right₀ (by norm_num) (by omega)

/-- A rounded value with exponent at least `k + (p - 1)` is a multiple of `2 ^ k`. -/
theorem roundBin_grid (p : ℕ) (emin : ℤ) (q : ℚ) (k : ℤ)
    (hk : k + ((p : ℤ) - 1) ≤ max (Int.log 2 |q|) emin) :
    ∃ m : ℤ, roundBin p emin q = m * 2 ^ k := by
  by_cases hq0 : q = 0
  · exact ⟨0, by rw [roundBin, if_pos hq0]; simp⟩
  · rw [roundBin, if_neg hq0]
    simp only []
    generalize max (Int.log 2 |q|) emin = e at hk
    obtain ⟨d, hd⟩ : ∃ d : ℕ, e - ((p : ℤ) - 1) = k + d :=
      ⟨(e - ((p : ℤ) - 1) - k).toNat, by omega⟩
    refine ⟨roundHalfEven (q / 2 ^ (e - ((p : ℤ) - 1))) * 2 ^ d, ?_⟩
    rw [hd, zpow_add₀ (by norm_num), zpow_natCast]
    push_cast
    ring


/-- No multiple of `2 ^ (-22)` is within `8e-8` of the real number pi. -/
theorem grid22_far_from_pi (m : ℤ) :
    (8 : ℝ) / 10 ^ 8 < |(m : ℝ) * (1 / 4194304) - Real.pi| := by
  have g := Real.pi_gt_d20
  have l := Real.pi_lt_d20
  rcases le_or_lt m 13176794 with h | h
  · have hm : (m : ℝ) ≤ 13176794 := by exact_mod_cast h
    rw [abs_sub_comm, lt_abs]
    left
    norm_num at g ⊢
    linarith
  · have hm : (13176795 : ℝ) ≤ (m : ℝ) := by exact_mod_cast h
    rw [lt_abs]
    left
    norm_num at l ⊢
    linarith

/-- No `float` value is within `8e-8` of the real number pi. -/
theorem toFloat_far_from_pi (q : ℚ) :
    (8 : ℝ) / 10 ^ 8 < |((toFloat q : ℚ) : ℝ) - Real.pi| := by
  rcases le_or_lt 1 (max (Int.log 2 |q|) (-126)) with h | h
  · obtain ⟨m, hm⟩ := roundBin_grid 24 (-126) q (-22) (by push_cast; omega)
    rw [toFloat, hm]
    have e : (((m : ℚ) * 2 ^ (-22 : ℤ) : ℚ) : ℝ) = (m : ℝ) * (1 / 4194304) := by
      push_cast
      norm_num [zpow_neg]
    rw [e]
    exact grid22_far_from_pi m
  · have hl : Int.log 2 |q| ≤ 0 := by
      have := le_max_left (Int.log 2 |q|) (-126)
      omega
    have hq : |q| < 2 ^ ((0 : ℤ) + 1) :=
      lt_of_lt_of_le (abs_lt_zpow_log q) (zpow_le_zpow_right₀ (by norm_num) (by omega))
    have hb := roundBin_abs_le 24 (-126) q 0 (by norm_num) hq
    have hb2 : |toFloat q| ≤ 2 := by
      rw [toFloat]
      norm_num at hb ⊢
      exact hb
    have hr : |((toFloat q : ℚ) : ℝ)| ≤ 2 := by
      have : ((|toFloat q| : ℚ) : ℝ) ≤ ((2 : ℚ) : ℝ) := Rat.cast_le.2 hb2
      rw [Rat.cast_abs] at this
      exact_mod_cast this
    have g := Real.pi_gt_d6
    rw [abs_le] at hr
    rw [abs_sub_comm, lt_abs]
    left
    norm_num at g ⊢
    linarith [hr.2]

/-- Evaluation of a rounding away from a tie: the exponent `e`, the unit in
the last place `u`, the nearest multiple `n` and the value `v` are supplied. -/
theorem roundBin_eval (p : ℕ) (emin : ℤ) (q : ℚ) (e n : ℤ) (u v : ℚ) (he : emin ≤ e)
    (h0 : 2 ^ e ≤ |q|) (h1 : |q| < 2 ^ (e + 1)) (hu : (2 : ℚ) ^ (e - ((p : ℤ) - 1)) = u)
    (hlo : (n : ℚ) - 1 / 2 < q / u) (hhi : q / u < n + 1 / 2) (hv : (n : ℚ) * u = v) :
    roundBin p emin q = v := by
  rw [← hv]
  refine roundBin_eq p emin q e n u he h0 h1 hu (roundHalfEven_eq _ n ?_)
  rw [abs_lt]
  constructor <;> linarith

/-! ## The floating-point loop -/

theorem iterateF_i (k : ℕ) : (piBodyF^[k] piInit).i = k := by
  induction k with
  | zero => rfl
  | succ k ih =>
    rw [Function.iterate_succ_apply']
    simp [piBodyF, ih]

theorem iterateF_sign (k : ℕ) : (piBodyF^[k] piInit).sign = (-1) ^ k := by
  induction k with
  | zero => rfl
  | succ k ih =>
    rw [Function.iterate_succ_apply']
    simp [piBodyF, ih, pow_succ]

theorem piGuard_iterateF (limit : ℤ) (k : ℕ) :
    piGuard limit (piBodyF^[k] piInit) = decide ((k : ℤ) < limit) := by
  simp [piGuard, iterateF_i]

theorem piLoopF_iterate_aux (N : ℕ) (d k : ℕ) (h : k + d = N) :
    piLoopF N (piBodyF^[k] piInit) = piBodyF^[N] piInit := by
  induction d generalizing k with
  | zero =>
    rw [piLoopF, piGuard_iterateF]
    have : ¬ ((k : ℤ) < (N : ℤ)) := by omega
    simp [this]
    have : k = N := by omega
    rw [this]
  | succ d ih =>
    rw [piLoopF, piGuard_iterateF]
    have : (k : ℤ) < (N : ℤ) := by omega
    simp only [this, decide_True, if_true]
    have hk := ih (k + 1) (by omega)
    rwa [Function.iterate_succ_apply'] at hk

theorem piLoopF_eq_iterate (N : ℕ) : piLoopF N piInit = piBodyF^[N] piInit :=
  piLoopF_iterate_aux N N 0 (by omega)

theorem piTraceF_iterate_aux (N : ℕ) (d k : ℕ) (h : k + d = N) :
    piTraceF N (piBodyF^[k] piInit) = (List.range' k d).map fun j => piBodyF^[j] piInit := by
  induction d generalizing k with
  | zero =>
    rw [piTraceF, piGuard_iterateF]
    have : ¬ ((k : ℤ) < (N : ℤ)) := by omega
    simp [this]
  | succ d ih =>
    rw [piTraceF, piGuard_iterateF]
    have : (k : ℤ) < (N : ℤ) := by omega
    simp only [this, decide_True, if_true]
    have hk := ih (k + 1) (by omega)
    rw [Function.iterate_succ_apply'] at hk
    rw [hk]
    simp [List.range'_succ]

theorem piTraceF_eq (N : ℕ) :
    piTraceF N piInit = (List.range N).map fun j => piBodyF^[j] piInit := by
  have := piTraceF_iterate_aux N N 0 (by omega)
  simpa [List.range_eq_range'] using this

/-! ## The first three passes in binary floating point -/

theorem toDouble_one : toDouble 1 = 1 := by
  refine roundBin_eval 53 (-1022) 1 0 4503599627370496 (1 / 4503599627370496) 1
    (by norm_num) ?_ ?_ ?_ ?_ ?_ ?_ <;> norm_num [abs_of_pos]

theorem toFloat_one : toFloat 1 = 1 := by
  refine roundBin_eval 24 (-126) 1 0 8388608 (1 / 8388608) 1
    (by norm_num) ?_ ?_ ?_ ?_ ?_ ?_ <;> norm_num [abs_of_pos]

theorem toDouble_third : toDouble (1 / 3) = 6004799503160661 / 18014398509481984 := by
  refine roundBin_eval 53 (-1022) (1 / 3) (-2) 6004799503160661 (1 / 18014398509481984) _
    (by norm_num) ?_ ?_ ?_ ?_ ?_ ?_ <;> norm_num [abs_of_pos]

theorem toFloat_third :
    toFloat (6004799503160661 / 18014398509481984) = 11184811 / 33554432 := by
  refine roundBin_eval 24 (-126) _ (-2) 11184811 (1 / 33554432) _
    (by norm_num) ?_ ?_ ?_ ?_ ?_ ?_ <;> norm_num [abs_of_pos]

theorem toFloat_neg_third : toFloat (-(11184811 / 33554432)) = -(11184811 / 33554432) := by
  refine roundBin_eval 24 (-126) _ (-2) (-11184811) (1 / 33554432) _
    (by norm_num) ?_ ?_ ?_ ?_ ?_ ?_ <;> norm_num [abs_of_pos]

theorem toFloat_two_thirds :
    toFloat (1 + -(11184811 / 33554432)) = 5592405 / 8388608 := by
  have h : roundBin 24 (-126) (1 + -(11184811 / 33554432)) = (11184810 : ℤ) * (1 / 16777216) := by
    refine roundBin_eq 24 (-126) _ (-1) 11184810 (1 / 16777216) (by norm_num) ?_ ?_ ?_
      (roundHalfEven_tie _ 11184810 ?_ (by decide)) <;> norm_num [abs_of_pos]
  rw [toFloat, h]
  norm_num

theorem toDouble_fifth : toDouble (1 / 5) = 3602879701896397 / 18014398509481984 := by
  refine roundBin_eval 53 (-1022) (1 / 5) (-3) 7205759403792794 (1 / 36028797018963968) _
    (by norm_num) ?_ ?_ ?_ ?_ ?_ ?_ <;> norm_num [abs_of_pos]

theorem toFloat_fifth :
    toFloat (3602879701896397 / 18014398509481984) = 13421773 / 67108864 := by
  refine roundBin_eval 24 (-126) _ (-3) 13421773 (1 / 67108864) _
    (by norm_num) ?_ ?_ ?_ ?_ ?_ ?_ <;> norm_num [abs_of_pos]

theorem toFloat_fifth_fixed : toFloat (13421773 / 67108864) = 13421773 / 67108864 := by
  refine roundBin_eval 24 (-126) _ (-3) 13421773 (1 / 67108864) _
    (by norm_num) ?_ ?_ ?_ ?_ ?_ ?_ <;> norm_num [abs_of_pos]

theorem toFloat_third_sum :
    toFloat (5592405 / 8388608 + 13421773 / 67108864) = 14540253 / 16777216 := by
  refine roundBin_eval 24 (-126) _ (-1) 14540253 (1 / 16777216) _
    (by norm_num) ?_ ?_ ?_ ?_ ?_ ?_ <;> norm_num [abs_of_pos]

theorem piTermF_pass0 : piTermF piInit = 1 := by
  have hden : (1 : ℚ) / (piDenominator piInit : ℚ) = 1 := by
    norm_num [piDenominator, piInit]
  have hsign : (1 : ℚ) * (piInit.sign : ℚ) = 1 := by norm_num [piInit]
  rw [piTermF]
  rw [hden, toDouble_one, toFloat_one, hsign, toFloat_one]

theorem piBodyF_pass0 : piBodyF piInit = { sum := 1, sign := -1, i := 1 } := by
  have hsum : piInit.sum + 1 = 1 := by norm_num [piInit]
  rw [piBodyF, piTermF_pass0, hsum, toFloat_one]
  rfl

theorem piTermF_pass1 :
    piTermF { sum := 1, sign := -1, i := 1 } = -(11184811 / 33554432) := by
  have hden : (1 : ℚ) / (piDenominator { sum := 1, sign := -1, i := 1 } : ℚ) = 1 / 3 := by
    norm_num [piDenominator]
  have hsign : (11184811 / 33554432 : ℚ) * (((-1 : ℤ)) : ℚ) = -(11184811 / 33554432) := by
    norm_num
  rw [piTermF]
  rw [hden, toDouble_third, toFloat_third, hsign, toFloat_neg_third]

theorem piBodyF_pass1 :
    piBodyF { sum := 1, sign := -1, i := 1 }
      = { sum := 5592405 / 8388608, sign := 1, i := 2 } := by
  rw [piBodyF, piTermF_pass1]
  rw [toFloat_two_thirds]
  rfl

theorem piTermF_pass2 :
    piTermF { sum := 5592405 / 8388608, sign := 1, i := 2 } = 13421773 / 67108864 := by
  have hden : (1 : ℚ) / (piDenominator { sum := 5592405 / 8388608, sign := 1, i := 2 } : ℚ)
      = 1 / 5 := by
    norm_num [piDenominator]
  have hsign : (13421773 / 67108864 : ℚ) * (((1 : ℤ)) : ℚ) = 13421773 / 67108864 := by
    norm_num
  rw [piTermF]
  rw [hden, toDouble_fifth, toFloat_fifth, hsign, toFloat_fifth_fixed]

theorem piBodyF_pass2 :
    piBodyF { sum := 5592405 / 8388608, sign := 1, i := 2 }
      = { sum := 14540253 / 16777216, sign := -1, i := 3 } := by
  rw [piBodyF, piTermF_pass2]
  rw [toFloat_third_sum]
  rfl

theorem iterateF_one : piBodyF^[1] piInit = { sum := 1, sign := -1, i := 1 } := by
  rw [Function.iterate_one, piBodyF_pass0]

theorem iterateF_two :
    piBodyF^[2] piInit = { sum := 5592405 / 8388608, sign := 1, i := 2 } := by
  rw [Function.iterate_succ_apply', iterateF_one, piBodyF_pass1]

theorem iterateF_three :
    piBodyF^[3] piInit = { sum := 14540253 / 16777216, sign := -1, i := 3 } := by
  rw [Function.iterate_succ_apply', iterateF_two, piBodyF_pass2]

theorem piWithF_two : piWithF 2 = 5592405 / 2097152 := by
  have hl : piLoopF 2 piInit = piBodyF^[2] piInit := piLoopF_eq_iterate 2
  have hd : toDouble (5592405 / 8388608 * 4) = 5592405 / 2097152 := by
    refine roundBin_eval 53 (-1022) _ 1 6004799145246720 (1 / 2251799813685248) _
      (by norm_num) ?_ ?_ ?_ ?_ ?_ ?_ <;> norm_num [abs_of_pos]
  have hf : toFloat (5592405 / 2097152) = 5592405 / 2097152 := by
    refine roundBin_eval 24 (-126) _ 1 11184810 (1 / 4194304) _
      (by norm_num) ?_ ?_ ?_ ?_ ?_ ?_ <;> norm_num [abs_of_pos]
  rw [piWithF, hl, iterateF_two, hd, hf]

theorem piWithF_three : piWithF 3 = 14540253 / 4194304 := by
  have hl : piLoopF 3 piInit = piBodyF^[3] piInit := piLoopF_eq_iterate 3
  have hd : toDouble (14540253 / 16777216 * 4) = 14540253 / 4194304 := by
    refine roundBin_eval 53 (-1022) _ 1 7806238888820736 (1 / 2251799813685248) _
      (by norm_num) ?_ ?_ ?_ ?_ ?_ ?_ <;> norm_num [abs_of_pos]
  have hf : toFloat (14540253 / 4194304) = 14540253 / 4194304 := by
    refine roundBin_eval 24 (-126) _ 1 14540253 (1 / 4194304) _
      (by norm_num) ?_ ?_ ?_ ?_ ?_ ?_ <;> norm_num [abs_of_pos]
  rw [piWithF, hl, iterateF_three, hd, hf]

theorem piTermsF_two : piTermsF 2 = [1, -(11184811 / 33554432)] := by
  have ht : piTraceF 2 piInit = _ := piTraceF_eq 2
  rw [piTermsF, ht]
  simp only [List.range_succ, List.range_zero, List.nil_append, List.singleton_append,
    List.map_cons, List.map_nil, Function.iterate_zero, id_eq]
  rw [iterateF_one, piTermF_pass0, piTermF_pass1]

theorem piTermsF_three :
    piTermsF 3 = [1, -(11184811 / 33554432), 13421773 / 67108864] := by
  have ht : piTraceF 3 piInit = _ := piTraceF_eq 3
  rw [piTermsF, ht]
  simp only [List.range_succ, List.range_zero, List.nil_append, List.singleton_append,
    List.cons_append, List.map_cons, List.map_nil, Function.iterate_zero, id_eq]
  rw [iterateF_one, iterateF_two, piTermF_pass0, piTermF_pass1, piTermF_pass2]

/-! ## Rounding error of the floating-point run -/

/-- The `float` term of a pass differs from the exact term by at most two
`float` roundings and one `double` rounding of values below 2. -/
theorem piTermF_err (s : PiState) (hd : 1 ≤ piDenominator s)
    (hs : s.sign = 1 ∨ s.sign = -1) :
    |piTermF s - piTerm s| ≤ 1 / 2 ^ 23 + 1 / 2 ^ 53 := by
  have hdq : (1 : ℚ) ≤ (piDenominator s : ℚ) := by exact_mod_cast hd
  have ha0 : (0 : ℚ) < 1 / (piDenominator s : ℚ) := by positivity
  have ha1 : 1 / (piDenominator s : ℚ) ≤ 1 := by
    rw [div_le_one (by linarith)]
    exact hdq
  show |toFloat (toFloat (toDouble (1 / (piDenominator s : ℚ))) * (s.sign : ℚ))
      - 1 / (piDenominator s : ℚ) * (s.sign : ℚ)| ≤ 1 / 2 ^ 23 + 1 / 2 ^ 53
  generalize 1 / (piDenominator s : ℚ) = a at ha0 ha1 ⊢
  have e53 : (2 : ℚ) ^ ((0 : ℤ) - ((53 : ℕ) : ℤ)) = 1 / 2 ^ 53 := by norm_num
  have e24 : (2 : ℚ) ^ ((0 : ℤ) - ((24 : ℕ) : ℤ)) = 1 / 2 ^ 24 := by norm_num
  have e1 : (2 : ℚ) ^ ((0 : ℤ) + 1) = 2 := by norm_num
  have hb : |toDouble a - a| ≤ 1 / 2 ^ 53 := by
    rw [← e53]
    refine roundBin_abs_err 53 (-1022) a 0 (by norm_num) ?_
    rw [e1, abs_of_pos ha0]
    linarith
  generalize toDouble a = b at hb ⊢
  have hb2 := abs_le.1 hb
  have hc : |toFloat b - b| ≤ 1 / 2 ^ 24 := by
    rw [← e24]
    refine roundBin_abs_err 24 (-126) b 0 (by norm_num) ?_
    rw [e1, abs_lt]
    norm_num at hb2 ⊢
    constructor <;> linarith
  generalize toFloat b = c at hc ⊢
  have hc2 := abs_le.1 hc
  have hcabs : |c| < 2 := by
    rw [abs_lt]
    norm_num at hb2 hc2 ⊢
    constructor <;> linarith
  rcases hs with h | h
  · rw [h]
    simp only [Int.cast_one, mul_one]
    have ht : |toFloat c - c| ≤ 1 / 2 ^ 24 := by
      rw [← e24]
      refine roundBin_abs_err 24 (-126) c 0 (by norm_num) ?_
      rw [e1]
      exact hcabs
    have ht2 := abs_le.1 ht
    rw [abs_le]
    norm_num at hb2 hc2 ht2 ⊢
    constructor <;> linarith
  · rw [h]
    simp only [Int.cast_neg, Int.cast_one, mul_neg, mul_one]
    have ht : |toFloat (-c) - -c| ≤ 1 / 2 ^ 24 := by
      rw [← e24]
      refine roundBin_abs_err 24 (-126) (-c) 0 (by norm_num) ?_
      rw [e1, abs_neg]
      exact hcabs
    have ht2 := abs_le.1 ht
    rw [abs_le]
    norm_num at hb2 hc2 ht2 ⊢
    constructor <;> linarith

theorem piTerm_iterateF (k : ℕ) :
    piTerm (piBodyF^[k] piInit) = piTerm (piBody^[k] piInit) := by
  simp only [piTerm, piDenominator, iterate_i, iterate_sign, iterateF_i, iterateF_sign]

theorem iterate_sum_unit (k : ℕ) :
    0 ≤ (piBody^[k] piInit).sum ∧ (piBody^[k] piInit).sum ≤ 1 := by
  rcases Nat.eq_zero_or_pos k with h | h
  · rw [h]
    exact ⟨le_refl _, by norm_num [piInit]⟩
  · have hb := iterate_sum_bounds k h
    exact ⟨by linarith [hb.1], hb.2⟩

/-- After `k ≤ 1024` passes the `float` accumulator is within
`k * (2 ^ (-22) + 2 ^ (-52))` of the exact partial sum. -/
theorem iterateF_sum_err (k : ℕ) (hk : k ≤ 1024) :
    |(piBodyF^[k] piInit).sum - (piBody^[k] piInit).sum|
      ≤ (k : ℚ) * (1 / 2 ^ 22 + 1 / 2 ^ 52) := by
  induction k with
  | zero => simp
  | succ k ih =>
    have ih2 := abs_le.1 (ih (by omega))
    have hkq : (k : ℚ) ≤ 1023 := by
      have : k ≤ 1023 := by omega
      exact_mod_cast this
    have hk0 : (0 : ℚ) ≤ (k : ℚ) := by positivity
    have hS := iterate_sum_unit k
    have hd : 1 ≤ piDenominator (piBodyF^[k] piInit) := by
      rw [piDenominator, iterateF_i]
      omega
    have hs : (piBodyF^[k] piInit).sign = 1 ∨ (piBodyF^[k] piInit).sign = -1 := by
      rw [iterateF_sign]
      rcases Nat.even_or_odd k with he | ho
      · exact Or.inl he.neg_one_pow
      · exact Or.inr ho.neg_one_pow
    have ht := abs_le.1 (piTermF_err _ hd hs)
    rw [piTerm_iterateF] at ht
    have hmag : |piTerm (piBody^[k] piInit)| ≤ 1 := by
      rw [abs_piTerm_iterate, div_le_one (by positivity)]
      linarith
    have hmag2 := abs_le.1 hmag
    rw [Function.iterate_succ_apply', Function.iterate_succ_apply']
    show |toFloat ((piBodyF^[k] piInit).sum + piTermF (piBodyF^[k] piInit))
        - ((piBody^[k] piInit).sum + piTerm (piBody^[k] piInit))| ≤ _
    generalize (piBodyF^[k] piInit).sum = sF at ih2 ⊢
    generalize piTermF (piBodyF^[k] piInit) = tF at ht ⊢
    generalize (piBody^[k] piInit).sum = sE at ih2 hS ⊢
    generalize piTerm (piBody^[k] piInit) = tE at ht hmag2 ⊢
    have e23 : (2 : ℚ) ^ ((1 : ℤ) - ((24 : ℕ) : ℤ)) = 1 / 2 ^ 23 := by norm_num
    have e4 : (2 : ℚ) ^ ((1 : ℤ) + 1) = 4 := by norm_num
    have hadd : |toFloat (sF + tF) - (sF + tF)| ≤ 1 / 2 ^ 23 := by
      rw [← e23]
      refine roundBin_abs_err 24 (-126) _ 1 (by norm_num) ?_
      rw [e4, abs_lt]
      norm_num at ih2 ht ⊢
      constructor <;> nlinarith
    have hadd2 := abs_le.1 hadd
    rw [abs_le]
    push_cast
    norm_num at ih2 ht hadd2 ⊢
    constructor <;> linarith

/-- For a bound `N ≤ 1024` the `float` result is within
`4 * N * (2 ^ (-22) + 2 ^ (-52)) + 2 ^ (-22) + 2 ^ (-51)` of the exact one. -/
theorem piWithF_err (N : ℕ) (hN : N ≤ 1024) :
    |piWithF N - piWith N|
      ≤ 4 * (N : ℚ) * (1 / 2 ^ 22 + 1 / 2 ^ 52) + 1 / 2 ^ 22 + 1 / 2 ^ 51 := by
  have he := abs_le.1 (iterateF_sum_err N hN)
  have hS := iterate_sum_unit N
  have hNq : (N : ℚ) ≤ 1024 := by exact_mod_cast hN
  have hN0 : (0 : ℚ) ≤ (N : ℚ) := by positivity
  rw [piWithF, piWith, piLoopF_eq_iterate, piLoop_eq_iterate]
  generalize (piBodyF^[N] piInit).sum = sF at he ⊢
  generalize (piBody^[N] piInit).sum = sE at he hS ⊢
  have e51 : (2 : ℚ) ^ ((2 : ℤ) - ((53 : ℕ) : ℤ)) = 1 / 2 ^ 51 := by norm_num
  have e22 : (2 : ℚ) ^ ((2 : ℤ) - ((24 : ℕ) : ℤ)) = 1 / 2 ^ 22 := by norm_num
  have e8 : (2 : ℚ) ^ ((2 : ℤ) + 1) = 8 := by norm_num
  have hd : |toDouble (sF * 4) - sF * 4| ≤ 1 / 2 ^ 51 := by
    rw [← e51]
    refine roundBin_abs_err 53 (-1022) _ 2 (by norm_num) ?_
    rw [e8, abs_lt]
    norm_num at he ⊢
    constructor <;> linarith
  generalize toDouble (sF * 4) = b at hd ⊢
  have hd2 := abs_le.1 hd
  have hf : |toFloat b - b| ≤ 1 / 2 ^ 22 := by
    rw [← e22]
    refine roundBin_abs_err 24 (-126) _ 2 (by norm_num) ?_
    rw [e8, abs_lt]
    norm_num at he hd2 ⊢
    constructor <;> linarith
  have hf2 := abs_le.1 hf
  rw [abs_le]
  norm_num at he hd2 hf2 ⊢
  constructor <;> linarith

/-- Exact-rational reading: the error of `piWith N` is at most `4 / (2N+1)`. -/
theorem piWith_error_le (N : ℕ) :
    |((piWith N : ℚ) : ℝ) - Real.pi| ≤ 4 / (2 * (N : ℝ) + 1) := by
  rw [piWith_abs_error]
  have h := (piWith_remainder N).2
  have h3 : (0 : ℝ) ≤ 2 / (2 * (N : ℝ) + 3) := by positivity
  linarith

/-- Binary floating point: for `N ≤ 1000` the error of `piWithF N` is at most
`4 / (2N+1)`. -/
theorem piWithF_error_le (N : ℕ) (hN : N ≤ 1000) :
    |((piWithF N : ℚ) : ℝ) - Real.pi| ≤ 4 / (2 * (N : ℝ) + 1) := by
  have h1 := piWithF_err N (by omega)
  have h1r : ((|piWithF N - piWith N| : ℚ) : ℝ)
      ≤ ((4 * (N : ℚ) * (1 / 2 ^ 22 + 1 / 2 ^ 52) + 1 / 2 ^ 22 + 1 / 2 ^ 51 : ℚ) : ℝ) :=
    Rat.cast_le.2 h1
  rw [Rat.cast_abs] at h1r
  push_cast at h1r
  have h2 := (piWith_remainder N).2
  rw [← piWith_abs_error] at h2
  have hNr : (N : ℝ) ≤ 1000 := by exact_mod_cast hN
  have hN0 : (0 : ℝ) ≤ (N : ℝ) := by positivity
  have h3 : (2 : ℝ) / 2003 ≤ 2 / (2 * (N : ℝ) + 3) :=
    div_le_div_of_nonneg_left (by norm_num) (by positivity) (by linarith)
  have h4 : |((piWithF N : ℚ) : ℝ) - Real.pi|
      ≤ |((piWithF N : ℚ) : ℝ) - ((piWith N : ℚ) : ℝ)| + |((piWith N : ℚ) : ℝ) - Real.pi| :=
    abs_sub_le _ _ _
  norm_num at h1r
  linarith

theorem piF_eq_piWithF : piF = piWithF ((800 : ℕ) : ℤ) := rfl

theorem piHeadsF_getElem (limit i : ℕ) (h : i ≤ limit) :
    (piTraceF limit piInit ++ [piLoopF limit piInit])[i]? = some (piBodyF^[i] piInit) := by
  rw [piTraceF_eq, piLoopF_eq_iterate]
  rcases Nat.lt_or_ge i limit with hlt | hge
  · rw [List.getElem?_append_left (by simpa using hlt)]
    rw [List.getElem?_map, List.getElem?_range hlt]
    rfl
  · have : i = limit := by omega
    subst this
    rw [List.getElem?_append_right (by simp)]
    simp

theorem piHeads_getElem (limit i : ℕ) (h : i ≤ limit) :
    (piTrace limit piInit ++ [piLoop limit piInit])[i]? = some (piBody^[i] piInit) := by
  rw [piTrace_eq, piLoop_eq_iterate]
  rcases Nat.lt_or_ge i limit with hlt | hge
  · rw [List.getElem?_append_left (by simpa using hlt)]
    rw [List.getElem?_map, List.getElem?_range hlt]
    rfl
  · have : i = limit := by omega
    subst this
    rw [List.getElem?_append_right (by simp)]
    simp

/-! ## The claims that depend on the values computed -/

/-- C2, as stated, fails in binary floating point: with `limit = 33554432`
(`2 ^ 25`) the value returned is a `float`, no `float` is within `8e-8` of pi,
and `4 / (2N+1)` is below `6e-8`. -/
theorem pi_convergence_bound_fails :
    ¬ |((piWithF 33554432 : ℚ) : ℝ) - Real.pi| ≤ 4 / (2 * 33554432 + 1) := by
  intro h
  have hf := toFloat_far_from_pi (toDouble ((piLoopF 33554432 piInit).sum * 4))
  have e : toFloat (toDouble ((piLoopF 33554432 piInit).sum * 4)) = piWithF 33554432 := rfl
  rw [e] at hf
  norm_num at h hf
  linarith

/-- C2, amended: in binary floating point, for every iteration count
`N ≤ 1000` the absolute error between the value returned with `limit = N` and
the real number pi is at most `4 / (2N+1)`, and for the fixed `N = 800` the
error of `pi()` is at most `4 / 1601`; reading the float operations as exact
rational arithmetic, the bound `4 / (2N+1)` holds for every `N`. -/
theorem pi_convergence_bound (N : ℕ) (hN : N ≤ 1000) :
    |((piWithF N : ℚ) : ℝ) - Real.pi| ≤ 4 / (2 * (N : ℝ) + 1)
      ∧ |((piF : ℚ) : ℝ) - Real.pi| ≤ 4 / 1601
      ∧ (∀ M : ℕ, |((piWith M : ℚ) : ℝ) - Real.pi| ≤ 4 / (2 * (M : ℝ) + 1))
      ∧ |((pi : ℚ) : ℝ) - Real.pi| ≤ 4 / 1601 := by
  refine ⟨piWithF_error_le N hN, ?_, piWith_error_le, ?_⟩
  · have h := piWithF_error_le 800 (by norm_num)
    rw [← piF_eq_piWithF] at h
    norm_num at h
    exact h
  · have h := piWith_error_le 800
    rw [← pi_eq_piWith] at h
    norm_num at h
    exact h

theorem pi_convergence_bound_witness :
    800 ≤ 1000
      ∧ |((piWithF ((800 : ℕ) : ℤ) : ℚ) : ℝ) - Real.pi| ≤ 4 / (2 * ((800 : ℕ) : ℝ) + 1)
      ∧ |((piF : ℚ) : ℝ) - Real.pi| ≤ 4 / 1601
      ∧ (∀ M : ℕ, |((piWith M : ℚ) : ℝ) - Real.pi| ≤ 4 / (2 * (M : ℝ) + 1))
      ∧ |((pi : ℚ) : ℝ) - Real.pi| ≤ 4 / 1601 :=
  ⟨by decide, pi_convergence_bound 800 (by decide)⟩

/-- C8, as stated, fails: with `limit = 2` the terms added are not `1.0, -0.5`,
the sum after the loop is not `0.5` and the value returned is not `2.0`,
neither reading the float operations as exact rational arithmetic nor in
binary floating point. -/
theorem pi_limit_two_not_half :
    (piTerms 2 ≠ [1, -(1 / 2)] ∧ (piLoop 2 piInit).sum ≠ 1 / 2 ∧ piWith 2 ≠ 2)
      ∧ (piTermsF 2 ≠ [1, -(1 / 2)] ∧ (piLoopF 2 piInit).sum ≠ 1 / 2 ∧ piWithF 2 ≠ 2) := by
  have ht : piTerms 2 = _ := piTerms_eq 2
  have hs : (piLoop 2 piInit).sum = _ := piLoop_sum_eq 2
  have hw : piWith 2 = _ := piWith_eq_sum 2
  have hl : piLoopF 2 piInit = piBodyF^[2] piInit := piLoopF_eq_iterate 2
  rw [ht, hs, hw, piTermsF_two, hl, iterateF_two, piWithF_two]
  norm_num [List.range_succ, Finset.sum_range_succ]

/-- C8, amended: with `limit = 2` the two signed terms added are `1` and about
`-0.3333`, the sum after the loop is about `0.6667` and the value returned is
about `2.6667`. Reading the float operations as exact rational arithmetic they
are `1, -1/3`, `2/3` and `8/3`; in binary floating point they are
`1, -11184811/33554432`, `5592405/8388608` and `5592405/2097152`, each within
`1e-6` of the exact value. -/
theorem pi_limit_two :
    (piTerms 2 = [1, -(1 / 3)] ∧ (piLoop 2 piInit).sum = 2 / 3 ∧ piWith 2 = 8 / 3)
      ∧ (piTermsF 2 = [1, -(11184811 / 33554432)]
          ∧ (piLoopF 2 piInit).sum = 5592405 / 8388608
          ∧ piWithF 2 = 5592405 / 2097152)
      ∧ ((∃ t : ℚ, piTermsF 2 = [1, t] ∧ |t - -(1 / 3)| < 1 / 10 ^ 6)
          ∧ |(piLoopF 2 piInit).sum - 2 / 3| < 1 / 10 ^ 6
          ∧ |piWithF 2 - 8 / 3| < 1 / 10 ^ 6) := by
  have ht : piTerms 2 = _ := piTerms_eq 2
  have hs : (piLoop 2 piInit).sum = _ := piLoop_sum_eq 2
  have hw : piWith 2 = _ := piWith_eq_sum 2
  have hl : piLoopF 2 piInit = piBodyF^[2] piInit := piLoopF_eq_iterate 2
  refine ⟨⟨?_, ?_, ?_⟩, ⟨piTermsF_two, ?_, piWithF_two⟩,
    ⟨⟨-(11184811 / 33554432), piTermsF_two, ?_⟩, ?_, ?_⟩⟩
  · rw [ht]; norm_num [List.range_succ]
  · rw [hs]; norm_num [Finset.sum_range_succ]
  · rw [hw]; norm_num [Finset.sum_range_succ]
  · rw [hl, iterateF_two]
  · rw [abs_lt]; constructor <;> norm_num
  · rw [hl, iterateF_two, abs_lt]; constructor <;> norm_num
  · rw [piWithF_two, abs_lt]; constructor <;> norm_num

/-- C9, as stated, fails: with `limit = 3` the terms added are not
`1.0, -0.5, +1/3`, the sum after the loop is not within `0.0001` of `0.8333`
and the value returned is not within `0.0001` of `3.3333`, neither reading the
float operations as exact rational arithmetic nor in binary floating point. -/
theorem pi_limit_three_not_stated :
    (piTerms 3 ≠ [1, -(1 / 2), 1 / 3]
        ∧ ¬ |(piLoop 3 piInit).sum - 8333 / 10000| ≤ 1 / 10000
        ∧ ¬ |piWith 3 - 33333 / 10000| ≤ 1 / 10000)
      ∧ (piTermsF 3 ≠ [1, -(1 / 2), 1 / 3]
        ∧ ¬ |(piLoopF 3 piInit).sum - 8333 / 10000| ≤ 1 / 10000
        ∧ ¬ |piWithF 3 - 33333 / 10000| ≤ 1 / 10000) := by
  have ht : piTerms 3 = _ := piTerms_eq 3
  have hs : (piLoop 3 piInit).sum = _ := piLoop_sum_eq 3
  have hw : piWith 3 = _ := piWith_eq_sum 3
  have hl : piLoopF 3 piInit = piBodyF^[3] piInit := piLoopF_eq_iterate 3
  rw [ht, hs, hw, piTermsF_three, hl, iterateF_three, piWithF_three]
  refine ⟨⟨?_, ?_, ?_⟩, ⟨?_, ?_, ?_⟩⟩
  · norm_num [List.range_succ]
  · norm_num [Finset.sum_range_succ, abs_le]
  · norm_num [Finset.sum_range_succ, abs_le]
  · norm_num
  · norm_num [abs_le]
  · norm_num [abs_le]

/-- C9, amended: with `limit = 3` the three signed terms added are `1`, about
`-0.3333` and about `+0.2`, the sum after the loop is within `0.0001` of
`0.8667` and the value returned is within `0.0001` of `3.4667`. Reading the
float operations as exact rational arithmetic they are `1, -1/3, 1/5`, `13/15`
and `52/15`; in binary floating point they are
`1, -11184811/33554432, 13421773/67108864`, `14540253/16777216` and
`14540253/4194304`, each within `1e-6` of the exact value. -/
theorem pi_limit_three :
    (piTerms 3 = [1, -(1 / 3), 1 / 5]
        ∧ (piLoop 3 piInit).sum = 13 / 15
        ∧ piWith 3 = 52 / 15
        ∧ |(piLoop 3 piInit).sum - 8667 / 10000| ≤ 1 / 10000
        ∧ |piWith 3 - 34667 / 10000| ≤ 1 / 10000)
      ∧ (piTermsF 3 = [1, -(11184811 / 33554432), 13421773 / 67108864]
        ∧ (piLoopF 3 piInit).sum = 14540253 / 16777216
        ∧ piWithF 3 = 14540253 / 4194304
        ∧ |(piLoopF 3 piInit).sum - 8667 / 10000| ≤ 1 / 10000
        ∧ |piWithF 3 - 34667 / 10000| ≤ 1 / 10000)
      ∧ ((∃ t u : ℚ, piTermsF 3 = [1, t, u]
            ∧ |t - -(1 / 3)| < 1 / 10 ^ 6 ∧ |u - 1 / 5| < 1 / 10 ^ 6)
        ∧ |(piLoopF 3 piInit).sum - 13 / 15| < 1 / 10 ^ 6
        ∧ |piWithF 3 - 52 / 15| < 1 / 10 ^ 6) := by
  have ht : piTerms 3 = _ := piTerms_eq 3
  have hs : (piLoop 3 piInit).sum = _ := piLoop_sum_eq 3
  have hw : piWith 3 = _ := piWith_eq_sum 3
  have hl : piLoopF 3 piInit = piBodyF^[3] piInit := piLoopF_eq_iterate 3
  refine ⟨⟨?_, ?_, ?_, ?_, ?_⟩, ⟨piTermsF_three, ?_, piWithF_three, ?_, ?_⟩,
    ⟨⟨-(11184811 / 33554432), 13421773 / 67108864, piTermsF_three, ?_, ?_⟩, ?_, ?_⟩⟩
  · rw [ht]; norm_num [List.range_succ]
  · rw [hs]; norm_num [Finset.sum_range_succ]
  · rw [hw]; norm_num [Finset.sum_range_succ]
  · rw [hs]; norm_num [Finset.sum_range_succ, abs_le]
  · rw [hw]; norm_num [Finset.sum_range_succ, abs_le]
  · rw [hl, iterateF_three]
  · rw [hl, iterateF_three]; norm_num [abs_le]
  · rw [piWithF_three]; norm_num [abs_le]
  · rw [abs_lt]; constructor <;> norm_num
  · rw [abs_lt]; constructor <;> norm_num
  · rw [hl, iterateF_three, abs_lt]; constructor <;> norm_num
  · rw [piWithF_three, abs_lt]; constructor <;> norm_num

/-- C10, as stated, fails in binary floating point: in the run with
`limit = 2`, after the loop has processed 2 terms the accumulator is
`5592405/8388608`, not `Σ_{k<2} (-1)^k / (2k+1) = 2/3`. -/
theorem pi_loop_invariant_fails :
    (piTraceF 2 piInit ++ [piLoopF 2 piInit])[2]? = some (piBodyF^[2] piInit)
      ∧ (piBodyF^[2] piInit).sum = 5592405 / 8388608
      ∧ (piBodyF^[2] piInit).sum ≠ ∑ k ∈ Finset.range 2, (-1 : ℚ) ^ k / (2 * (k : ℚ) + 1) := by
  have hh : (piTraceF 2 piInit ++ [piLoopF 2 piInit])[2]? = _ := piHeadsF_getElem 2 2 (le_refl 2)
  refine ⟨hh, ?_, ?_⟩
  · rw [iterateF_two]
  · rw [iterateF_two]
    norm_num [Finset.sum_range_succ]

/-- C10, amended: loop invariant of `pi`. Reading the float operations as
exact rational arithmetic, in a run with bound `limit`, for every `i ≤ limit`
the state at the loop head after `i` passes through the body has
`sum = Σ_{k<i} (-1)^k / (2k+1)`; the sum is `0` before the first pass, and the
value returned is 4 times the sum of the exit state. In binary floating point
the accumulator after `i` passes equals that sum up to rounding: for
`i ≤ 1024` it is within `i * (2 ^ (-22) + 2 ^ (-52))` of it. -/
theorem pi_loop_invariant (limit i : ℕ) (h : i ≤ limit) :
    ((piTrace limit piInit ++ [piLoop limit piInit])[i]? = some (piBody^[i] piInit)
        ∧ (piBody^[i] piInit).sum = ∑ k ∈ Finset.range i, (-1 : ℚ) ^ k / (2 * (k : ℚ) + 1)
        ∧ piInit.sum = 0
        ∧ piWith limit = 4 * (piLoop limit piInit).sum)
      ∧ ((piTraceF limit piInit ++ [piLoopF limit piInit])[i]? = some (piBodyF^[i] piInit)
        ∧ (i ≤ 1024 →
            |(piBodyF^[i] piInit).sum - ∑ k ∈ Finset.range i, (-1 : ℚ) ^ k / (2 * (k : ℚ) + 1)|
              ≤ (i : ℚ) * (1 / 2 ^ 22 + 1 / 2 ^ 52))) := by
  refine ⟨⟨piHeads_getElem limit i h, iterate_sum i, rfl, ?_⟩,
    ⟨piHeadsF_getElem limit i h, fun hi => ?_⟩⟩
  · rw [piWith, mul_comm]
  · rw [← iterate_sum]
    exact iterateF_sum_err i hi

theorem pi_loop_invariant_witness :
    (2 ≤ 3 ∧ 2 ≤ 1024)
      ∧ ((piTrace ((3 : ℕ) : ℤ) piInit ++ [piLoop ((3 : ℕ) : ℤ) piInit])[2]?
            = some (piBody^[2] piInit)
        ∧ (piBody^[2] piInit).sum = ∑ k ∈ Finset.range 2, (-1 : ℚ) ^ k / (2 * (k : ℚ) + 1)
        ∧ piInit.sum = 0
        ∧ piWith ((3 : ℕ) : ℤ) = 4 * (piLoop ((3 : ℕ) : ℤ) piInit).sum)
      ∧ (piTraceF ((3 : ℕ) : ℤ) piInit ++ [piLoopF ((3 : ℕ) : ℤ) piInit])[2]?
            = some (piBodyF^[2] piInit)
      ∧ |(piBodyF^[2] piInit).sum - ∑ k ∈ Finset.range 2, (-1 : ℚ) ^ k / (2 * (k : ℚ) + 1)|
          ≤ ((2 : ℕ) : ℚ) * (1 / 2 ^ 22 + 1 / 2 ^ 52) :=
  ⟨⟨by decide, by decide⟩, (pi_loop_invariant 3 2 (by decide)).1,
    (pi_loop_invariant 3 2 (by decide)).2.1,
    (pi_loop_invariant 3 2 (by decide)).2.2 (by decide)⟩

end Tetra
